import Mathlib

/-!
# Verification of the hugr-llvm lowering engine

A shallow embedding, in Lean 4, of the core of the `hugr-llvm` lowering
engine, together with theorems settling the frozen claims about its
specification.

The embedding is organised as follows.

* `HugrLLVM.Value`: the value-level semantics of the LLVM instructions that
  `src/sum.rs` emits (`insertvalue` / `extractvalue` on aggregates), and the
  translation of `LLVMSumType` with its `build_tag` / `build_untag` /
  `build_get_tag` operations.  The builder calls in the source emit
  instructions; here they are given their value-level (runtime) semantics,
  which is what the round-trip and tag-fidelity claims are about.
* `HugrLLVM.Registry`: the translation of `CodegenExtensionsBuilder` from
  `src/custom.rs` (op and constant handler registration and lookup).
* `HugrLLVM.TypeMapRel`: the translation of `TypeMap::map_type` from
  `src/utils/type_map.rs`, as an executable function and as an evaluation
  relation, used for the determinism claim.
* `HugrLLVM.Emission`: an emission-level model of the region emitters
  (`ConditionalEmitter` from `src/emit/ops.rs`, `CfgEmitter` from
  `src/emit/ops/cfg.rs`).  Here builder operations are type-directed (as in
  inkwell: bounds checks are against the static LLVM type) and the state
  records allocated blocks, mailboxes, and emitted switch instructions.
-/

namespace HugrLLVM

/-- LLVM types: the fragment used by the sum encoding (`i<width>` integer
types and literal struct types). -/
inductive LLVMType where
  | intT : Nat → LLVMType
  | structT : List LLVMType → LLVMType

/-- LLVM first-class values, value-level view.  `poison` and `undef` carry
their LLVM type (inkwell's `get_poison` / `get_undef` are per-type). -/
inductive LLVMValue where
  | intV : Nat → Nat → LLVMValue
  | structV : List LLVMValue → LLVMValue
  | poison : LLVMType → LLVMValue
  | undef : LLVMType → LLVMValue

/-- Errors produced by the embedded builder operations and sum-type
operations.  `shapeError` corresponds to the source's
"LLVMSumType::build: wrong number of fields" (`anyhow!`) error;
`badVariantIndex` to "Bad variant index"; the remaining constructors model
inkwell builder errors and Rust panics (`into_struct_value` /
`into_int_value` on a value of the wrong kind). -/
inductive BuildErr where
  | extractOutOfRange
  | insertOutOfRange
  | notAnAggregate
  | notAStruct
  | notAnInt
  | badVariantIndex (tag : Nat)
  | shapeError (expected actual : Nat)
  | noFieldTypeAtIndex
  | notAStructRow
  deriving DecidableEq, Repr

/-- The aggregate fields of a value, if it is of aggregate (struct) kind.
`extractvalue` on `poison`/`undef` aggregates yields `poison`/`undef` of the
field type; we expand one level lazily. -/
def fieldsOf? : LLVMValue → Option (List LLVMValue)
  | .structV fs => some fs
  | .poison (.structT ts) => some (ts.map .poison)
  | .undef (.structT ts) => some (ts.map .undef)
  | _ => none

/-- Is this a value of LLVM struct kind (inkwell `StructValue`)? -/
def isStructValue : LLVMValue → Bool
  | .structV _ => true
  | .poison (.structT _) => true
  | .undef (.structT _) => true
  | _ => false

/-- inkwell `Builder::build_extract_value`, value-level semantics.  The
index is bounds-checked against the aggregate's field count. -/
def build_extract_value (v : LLVMValue) (i : Nat) : Except BuildErr LLVMValue :=
  match fieldsOf? v with
  | some fs =>
    if h : i < fs.length then .ok fs[i] else .error .extractOutOfRange
  | none => .error .notAnAggregate

/-- inkwell `Builder::build_insert_value`, value-level semantics. -/
def build_insert_value (v x : LLVMValue) (i : Nat) : Except BuildErr LLVMValue :=
  match fieldsOf? v with
  | some fs =>
    if i < fs.length then .ok (.structV (fs.set i x)) else .error .insertOutOfRange
  | none => .error .notAnAggregate

/-- inkwell `IntType::const_int` (value truncated to the bit width). -/
def constInt (w v : Nat) : LLVMValue := .intV w (v % 2 ^ w)

/-- Rust `.into_int_value()`: succeeds exactly on values of integer kind
(panics otherwise, modelled as `notAnInt`). -/
def intoIntValue : LLVMValue → Except BuildErr LLVMValue
  | .intV w v => .ok (.intV w v)
  | .poison (.intT w) => .ok (.poison (.intT w))
  | .undef (.intT w) => .ok (.undef (.intT w))
  | _ => .error .notAnInt

/-- A hugr sum type: an ordered list of variants, each an ordered row of
field types.  The fields are recorded as the LLVM types they map to (the
`session.llvm_type` leaf mapping in `LLVMSumType::try_new` is irrelevant to
the sum-encoding claims, which hold for any leaf mapping). -/
structure HugrSumType where
  variants : List (List LLVMType)

/-- `HugrSumType::num_variants`. -/
def HugrSumType.num_variants (st : HugrSumType) : Nat := st.variants.length

/-- `LLVMSumType::sum_type_has_tag_field` (src/sum.rs:159-161):
`st.num_variants() >= 2`. -/
def sum_type_has_tag_field (st : HugrSumType) : Bool := decide (2 ≤ st.num_variants)

/-- `LLVMSumType` (src/sum.rs:20): the LLVM struct type (recorded by its
list of field types) together with the originating `HugrSumType`. -/
structure LLVMSumType where
  fieldTypes : List LLVMType
  sumType : HugrSumType

/-- `LLVMSumType::try_new` (src/sum.rs:24-48): the struct's fields are the
`i32` tag (present only when the sum has a tag field) followed by one
struct per variant holding that variant's row. -/
def LLVMSumType.try_new (st : HugrSumType) : LLVMSumType :=
  { fieldTypes :=
      (if sum_type_has_tag_field st then [LLVMType.intT 32] else []) ++
        st.variants.map LLVMType.structT
    sumType := st }

namespace LLVMSumType

/-- `LLVMSumType::has_tag_field`. -/
def has_tag_field (s : LLVMSumType) : Bool := sum_type_has_tag_field s.sumType

/-- `LLVMSumType::get_variant_index` (src/sum.rs:167-169). -/
def get_variant_index (s : LLVMSumType) (tag : Nat) : Nat :=
  tag + (if s.has_tag_field then 1 else 0)

/-- `LLVMSumType::get_variant_typerow` via `get_variant_typerow_st`
(src/sum.rs:171-180): fails on a bad variant index. -/
def get_variant_typerow (s : LLVMSumType) (tag : Nat) : Except BuildErr (List LLVMType) :=
  match s.sumType.variants[tag]? with
  | some r => .ok r
  | none => .error (.badVariantIndex tag)

/-- `LLVMSumType::num_fields` (src/sum.rs:182-185). -/
def num_fields (s : LLVMSumType) (tag : Nat) : Except BuildErr Nat :=
  (s.get_variant_typerow tag).map List.length

/-- `LLVMSumType::get_poison`. -/
def get_poison (s : LLVMSumType) : LLVMValue := .poison (.structT s.fieldTypes)

/-- `LLVMSumType::build_get_tag` (src/sum.rs:63-79): convert to a struct
value (else "Not a struct type"); when the sum has a tag field extract
field 0 as an integer, otherwise return the constant `0`. -/
def build_get_tag (s : LLVMSumType) (v : LLVMValue) : Except BuildErr LLVMValue :=
  if isStructValue v then
    if s.has_tag_field then do
      intoIntValue (← build_extract_value v 0)
    else
      .ok (constInt 32 0)
  else
    .error .notAStruct

/-- `LLVMSumType::build_untag` (src/sum.rs:85-106): extract the struct at
the variant's index, then extract each of its fields in order (the field
count is `count_fields()` of the extracted struct's type). -/
def build_untag (s : LLVMSumType) (tag : Nat) (v : LLVMValue) :
    Except BuildErr (List LLVMValue) := do
  if isStructValue v then
    let inner ← build_extract_value v (s.get_variant_index tag)
    match fieldsOf? inner with
    | some fs => (List.range fs.length).mapM (fun i => build_extract_value inner i)
    | none => .error .notAStruct
  else
    .error .notAStruct

/-- The loop `for (i, val) in vs.into_iter().enumerate()` of `build_tag`,
inserting values successively at indices `i`, `i+1`, …. -/
def insertAll (acc : LLVMValue) (i : Nat) : List LLVMValue → Except BuildErr LLVMValue
  | [] => .ok acc
  | v :: vs => do insertAll (← build_insert_value acc v i) (i + 1) vs

/-- `self.0.get_field_type_at_index(variant_index)` in `build_tag`
(src/sum.rs:120-123): `None` becomes the "no field type at index" error. -/
def getFieldType (s : LLVMSumType) (i : Nat) : Except BuildErr LLVMType :=
  match s.fieldTypes[i]? with
  | some t => .ok t
  | none => .error .noFieldTypeAtIndex

/-- The `row_t.is_struct_type()` check of `build_tag` (src/sum.rs:124-128). -/
def asStructRow : LLVMType → Except BuildErr (List LLVMType)
  | .structT rts => .ok rts
  | _ => .error .notAStructRow

/-- `LLVMSumType::build_tag` (src/sum.rs:109-152): check the field count
against the variant's row length (else the "wrong number of fields" shape
error); build the row struct from `undef` by inserting each field; build
the sum struct from `poison` by inserting the tag constant (when the sum
has a tag field) and the row struct at the variant's index. -/
def build_tag (s : LLVMSumType) (tag : Nat) (vs : List LLVMValue) :
    Except BuildErr LLVMValue := do
  let expected ← s.num_fields tag
  if expected ≠ vs.length then
    .error (.shapeError expected vs.length)
  else
    let row_ts ← asStructRow (← s.getFieldType (s.get_variant_index tag))
    let row_v ← insertAll (.undef (.structT row_ts)) 0 vs
    let sum_v ←
      if s.has_tag_field then
        build_insert_value s.get_poison (constInt 32 tag) 0
      else
        Except.ok s.get_poison
    build_insert_value sum_v row_v (s.get_variant_index tag)

end LLVMSumType



/-! ## Extension registry: `CodegenExtensionsBuilder` (src/custom.rs) -/

/-- The key of the op registry: the string `"{ext}.{op}"` built by `add_op`
(src/custom.rs:150) and matched against `op.name()` at lookup
(src/custom.rs:224). -/
def opKey (ext op : String) : String := ext ++ "." ++ op

/-- Errors arising from the registry (src/custom.rs): `unknownOp` and
`unknownCustomConst` are the "Unknown op:"/"Unknown CustomConst:" lookup
errors; `badKonst` is the downcast failure inside the wrapper installed by
`add_custom_const`; `handler` wraps an error returned by a registered
handler itself. -/
inductive RegError (E : Type) where
  | unknownOp (key : String)
  | unknownCustomConst (typeId : Nat)
  | badKonst
  | handler (e : E)

/-- A custom constant: its dynamic Rust type (`TypeId`, modelled as `Nat`)
together with its payload. -/
structure CustomConst (P : Type) where
  typeId : Nat
  payload : P

/-- `CodegenExtensionsBuilder` (src/custom.rs:103-110), restricted to the
op and constant tables.  Each `HashMap` is modelled as an association list
in which an insertion shadows any earlier binding of the same key; this has
exactly the lookup semantics of `HashMap::insert` / `HashMap::get`. -/
structure CodegenExtensionsBuilder (P V E Op : Type) where
  ops : List (String × Op)
  consts : List (Nat × (CustomConst P → Except (RegError E) V))

/-- `CodegenExtensionsBuilder::default()`: both tables empty. -/
def CodegenExtensionsBuilder.empty {P V E Op : Type} : CodegenExtensionsBuilder P V E Op :=
  ⟨[], []⟩

/-- `add_op` (src/custom.rs:143-152): insert the handler under the key
`"{ext}.{op}"`, replacing any previous handler for that key. -/
def CodegenExtensionsBuilder.add_op {P V E Op : Type}
    (b : CodegenExtensionsBuilder P V E Op) (ext op : String) (h : Op) :
    CodegenExtensionsBuilder P V E Op :=
  { b with ops := (opKey ext op, h) :: b.ops }

/-- `add_custom_const` (src/custom.rs:116-130): insert, under the constant
kind's `TypeId`, a wrapper that downcasts the constant to the handler's
kind (`"bad konst"` on failure) and applies the handler. -/
def CodegenExtensionsBuilder.add_custom_const {P V E Op : Type}
    (b : CodegenExtensionsBuilder P V E Op) (k : Nat)
    (h : CustomConst P → Except E V) : CodegenExtensionsBuilder P V E Op :=
  { b with
    consts :=
      (k, fun c =>
        if c.typeId = k then (h c).mapError RegError.handler
        else .error .badKonst) :: b.consts }

/-- `emitter` (src/custom.rs:217-227): look up the handler registered under
the op's qualified name; `"Unknown op"` if absent. -/
def CodegenExtensionsBuilder.emitter {P V E Op : Type}
    (b : CodegenExtensionsBuilder P V E Op) (key : String) : Except (RegError E) Op :=
  match b.ops.lookup key with
  | some h => .ok h
  | none => .error (.unknownOp key)

/-- `emit_load_constant` (src/custom.rs:205-215): look up the handler
registered under the constant's `type_id()`; `"Unknown CustomConst"` if
absent; apply the found handler to the constant. -/
def CodegenExtensionsBuilder.emit_load_constant {P V E Op : Type}
    (b : CodegenExtensionsBuilder P V E Op) (c : CustomConst P) : Except (RegError E) V :=
  match b.consts.lookup c.typeId with
  | some h => h c
  | none => .error (.unknownCustomConst c.typeId)

/-- A sequence of `add_op` registrations applied in order. -/
def CodegenExtensionsBuilder.add_ops {P V E Op : Type}
    (b : CodegenExtensionsBuilder P V E Op) (regs : List (String × String × Op)) :
    CodegenExtensionsBuilder P V E Op :=
  regs.foldl (fun b r => b.add_op r.1 r.2.1 r.2.2) b



/-! ## Type mapper: `TypeMap::map_type` (src/utils/type_map.rs) -/

/-- Graph types as dispatched on by `TypeMap::map_type`
(src/utils/type_map.rs:134-151): a leaf extension (custom) type identified
by its `CustomTypeKey` (extension id, type name), a sum type (list of
variants, each a row), a function type, or any other `TypeEnum` shape
(routed to `default_out`). -/
inductive HType where
  | extension (ext name : String) : HType
  | sum (variants : List (List HType)) : HType
  | function (ins outs : List HType) : HType
  | other (id : Nat) : HType

/-- The `TypeMapping` trait (src/utils/type_map.rs:38-88): aggregation
callbacks for sums and function types, the conversions of their results
into the common output type, and `default_out` for everything else.
`Inv` is the auxiliary data `InV` threaded through the mapping. -/
structure TypeMapping (Inv Out SumOut FuncOut E : Type) where
  map_sum_type : List (List HType) → Inv → List (List Out) → Except E SumOut
  map_function_type : List HType → List HType → Inv → List Out → List Out → Except E FuncOut
  sum_into_out : SumOut → Out
  func_into_out : FuncOut → Out
  default_out : Inv → HType → Except E Out

/-- The `custom_hooks` table of `TypeMap` (src/utils/type_map.rs:99),
keyed by `CustomTypeKey`. -/
def TypeHooks (Inv Out E : Type) : Type :=
  List ((String × String) × (Inv → String → String → Except E Out))

mutual

/-- `TypeMap::map_type` (src/utils/type_map.rs:134-151): dispatch on the
type's shape — extension types go to the registered hook (or `default_out`
when unregistered), sum types recursively map every field of every variant
then aggregate, function types recursively map inputs and outputs then
aggregate, anything else goes to `default_out`. -/
def map_type {Inv Out SumOut FuncOut E : Type}
    (M : TypeMapping Inv Out SumOut FuncOut E) (hooks : TypeHooks Inv Out E)
    (inv : Inv) : HType → Except E Out
  | .extension ext name =>
    match hooks.lookup (ext, name) with
    | some handler => handler inv ext name
    | none => M.default_out inv (.extension ext name)
  | .sum variants =>
    match map_rows M hooks inv variants with
    | .ok outs => (M.map_sum_type variants inv outs).map M.sum_into_out
    | .error e => .error e
  | .function ins outs =>
    match map_row M hooks inv ins with
    | .ok ia =>
      match map_row M hooks inv outs with
      | .ok oa => (M.map_function_type ins outs inv ia oa).map M.func_into_out
      | .error e => .error e
    | .error e => .error e
  | .other n => M.default_out inv (.other n)

/-- One row of `map_type` calls (`collect::<Result<Vec<_>>>`, first error
wins). -/
def map_row {Inv Out SumOut FuncOut E : Type}
    (M : TypeMapping Inv Out SumOut FuncOut E) (hooks : TypeHooks Inv Out E)
    (inv : Inv) : List HType → Except E (List Out)
  | [] => .ok []
  | t :: ts =>
    match map_type M hooks inv t with
    | .ok o =>
      match map_row M hooks inv ts with
      | .ok os => .ok (o :: os)
      | .error e => .error e
    | .error e => .error e

/-- All variants of a sum, mapped row by row (src/utils/type_map.rs:
154-172). -/
def map_rows {Inv Out SumOut FuncOut E : Type}
    (M : TypeMapping Inv Out SumOut FuncOut E) (hooks : TypeHooks Inv Out E)
    (inv : Inv) : List (List HType) → Except E (List (List Out))
  | [] => .ok []
  | r :: rs =>
    match map_row M hooks inv r with
    | .ok o =>
      match map_rows M hooks inv rs with
      | .ok os => .ok (o :: os)
      | .error e => .error e
    | .error e => .error e

end

mutual

/-- The evaluation relation of `map_type`: `MapEval t r` holds when a call
of the type mapper on `t` can return the representation `r`.  One
constructor per dispatch arm of `map_type`. -/
inductive MapEval {Inv Out SumOut FuncOut E : Type}
    (M : TypeMapping Inv Out SumOut FuncOut E) (hooks : TypeHooks Inv Out E)
    (inv : Inv) : HType → Out → Prop where
  | ext_hook (ext name : String) (handler : Inv → String → String → Except E Out) (r : Out) :
      hooks.lookup (ext, name) = some handler → handler inv ext name = .ok r →
      MapEval M hooks inv (.extension ext name) r
  | ext_default (ext name : String) (r : Out) :
      hooks.lookup (ext, name) = none →
      M.default_out inv (.extension ext name) = .ok r →
      MapEval M hooks inv (.extension ext name) r
  | sum (variants : List (List HType)) (outs : List (List Out)) (sr : SumOut) :
      RowsEval M hooks inv variants outs →
      M.map_sum_type variants inv outs = .ok sr →
      MapEval M hooks inv (.sum variants) (M.sum_into_out sr)
  | function (ins outs : List HType) (ia oa : List Out) (fr : FuncOut) :
      RowEval M hooks inv ins ia → RowEval M hooks inv outs oa →
      M.map_function_type ins outs inv ia oa = .ok fr →
      MapEval M hooks inv (.function ins outs) (M.func_into_out fr)
  | other (n : Nat) (r : Out) :
      M.default_out inv (.other n) = .ok r →
      MapEval M hooks inv (.other n) r

/-- Row-wise evaluation: every type of the row evaluated, in order. -/
inductive RowEval {Inv Out SumOut FuncOut E : Type}
    (M : TypeMapping Inv Out SumOut FuncOut E) (hooks : TypeHooks Inv Out E)
    (inv : Inv) : List HType → List Out → Prop where
  | nil : RowEval M hooks inv [] []
  | cons (t : HType) (ts : List HType) (r : Out) (rs : List Out) :
      MapEval M hooks inv t r → RowEval M hooks inv ts rs →
      RowEval M hooks inv (t :: ts) (r :: rs)

/-- Variant-wise evaluation of all rows of a sum. -/
inductive RowsEval {Inv Out SumOut FuncOut E : Type}
    (M : TypeMapping Inv Out SumOut FuncOut E) (hooks : TypeHooks Inv Out E)
    (inv : Inv) : List (List HType) → List (List Out) → Prop where
  | nil : RowsEval M hooks inv [] []
  | cons (r : List HType) (rs : List (List HType)) (o : List Out) (os : List (List Out)) :
      RowEval M hooks inv r o → RowsEval M hooks inv rs os →
      RowsEval M hooks inv (r :: rs) (o :: os)

end



/-! ## Emission model: context, mailboxes, and the region emitters

The builder operations here are the emission-time view: values are known by
their static LLVM type (inkwell bounds-checks aggregate indices against the
type), reads produce fresh SSA names, and the state records allocated
blocks, mailboxes, the event log and the emitted `switch` terminators. -/

/-- Emission-time values: an SSA name with its static LLVM type, or an
integer constant produced by `const_int`. -/
inductive EV where
  | ssa (t : LLVMType) (id : Nat)
  | constI (w : Nat) (v : Nat)

/-- The static LLVM type of an emission-time value. -/
def EV.ty : EV → LLVMType
  | .ssa t _ => t
  | .constI w _ => .intT w

/-- Is this value the `i<w>` integer constant `v`? -/
def evIsConst (e : EV) (w v : Nat) : Bool :=
  match e with
  | .constI w2 v2 => w = w2 && v = v2
  | _ => false

/-- One emitted `switch` terminator: scrutinee, default target block, and
the explicit (case value, target block) pairs — exactly the arguments of
inkwell's `build_switch`. -/
structure SwitchRec where
  scrutinee : EV
  defaultBlock : Nat
  cases : List (EV × Nat)

/-- The runtime semantics of an emitted `switch`: control transfers to the
first explicit case whose value equals the scrutinee's value, and to the
default block when no case matches. -/
def SwitchRec.target (s : SwitchRec) (t : Nat) : Nat :=
  match s.cases.find? (fun cse => evIsConst cse.1 32 t) with
  | some cse => cse.2
  | none => s.defaultBlock

/-- Events recorded during emission (used by the temporal claim). -/
inductive Event where
  | allocBlock (bb : Nat)
  | allocMailbox (mb : Nat)
  | mailboxWrite (mb : Nat)
  | uncondBr (bb : Nat)
  | switchTerm (scrut : EV) (dflt : Nat) (cases : List (EV × Nat))

/-- Errors and panics of the emission model. -/
inductive EmErr where
  | extractOutOfRange
  | notAStruct
  | notAnInt
  | mailboxArity (mb expected actual : Nat)
  | unknownMailbox (mb : Nat)
  | indexOutOfBounds
  | cfgShape
  | notDeclOrDefn

/-- Modelled from the spec: the Function Context of §2/§4.4.  The source
file `src/emit/func.rs` (with `EmitFuncContext`, `RowMailBox` and
`RowPromise`) is not under src/ — only its callers are.  Per the spec the
context owns basic-block allocation and the builder cursor; a mailbox is "a
unit of storage sized to one row" supporting length-checked writes; the
per-node mailboxes are handed out by `node_outs_rmb`/`node_ins_rmb`,
allocated on first use. -/
structure Ctx where
  nextBlock : Nat
  nextMailbox : Nat
  nextSsa : Nat
  curBlock : Nat
  mailboxRow : List (Nat × List LLVMType)
  nodeMailbox : List (Nat × Nat)
  events : List Event
  switches : List SwitchRec

/-- Modelled from the spec: `EmitFuncContext::new_basic_block` allocates a
fresh basic block. -/
def newBasicBlock (c : Ctx) : Nat × Ctx :=
  (c.nextBlock,
   { c with
     nextBlock := c.nextBlock + 1
     events := c.events ++ [.allocBlock c.nextBlock] })

/-- Modelled from the spec: `EmitFuncContext::new_row_mail_box` creates a
fresh mailbox sized to the given row. -/
def newRowMailBox (c : Ctx) (row : List LLVMType) : Nat × Ctx :=
  (c.nextMailbox,
   { c with
     nextMailbox := c.nextMailbox + 1
     mailboxRow := (c.nextMailbox, row) :: c.mailboxRow
     events := c.events ++ [.allocMailbox c.nextMailbox] })

/-- Modelled from the spec: `EmitFuncContext::node_outs_rmb` /
`node_ins_rmb` return the mailbox of a node's ports, allocating it on
first use and returning the cached one afterwards. -/
def nodeRmb (c : Ctx) (node : Nat) (row : List LLVMType) : Nat × Ctx :=
  match c.nodeMailbox.lookup node with
  | some mb => (mb, c)
  | none =>
    let p := newRowMailBox c row
    (p.1, { p.2 with nodeMailbox := (node, p.1) :: p.2.nodeMailbox })

/-- Fresh SSA values of the given types. -/
def freshSsas (c : Ctx) (ts : List LLVMType) : List EV × Ctx :=
  (((List.range ts.length).zip ts).map (fun p => EV.ssa p.2 (c.nextSsa + p.1)),
   { c with nextSsa := c.nextSsa + ts.length })

/-- Modelled from the spec: `RowMailBox::read_vec` at emission time yields
one value per field of the mailbox's row. -/
def rmbRead (c : Ctx) (mb : Nat) : Except EmErr (List EV × Ctx) :=
  match c.mailboxRow.lookup mb with
  | some row => .ok (freshSsas c row)
  | none => .error (.unknownMailbox mb)

/-- Modelled from the spec: `RowMailBox::write` / `RowPromise::finish` is
"write(values) (row-length-checked)". -/
def rmbWrite (c : Ctx) (mb : Nat) (vs : List EV) : Except EmErr Ctx :=
  match c.mailboxRow.lookup mb with
  | some row =>
    if vs.length = row.length then
      .ok { c with events := c.events ++ [.mailboxWrite mb] }
    else
      .error (.mailboxArity mb row.length vs.length)
  | none => .error (.unknownMailbox mb)

/-- `Builder::build_unconditional_branch`. -/
def uncondBranch (c : Ctx) (bb : Nat) : Ctx :=
  { c with events := c.events ++ [.uncondBr bb] }

/-- `Builder::build_switch`: records the scrutinee, the default target and
the explicit case list. -/
def buildSwitch (c : Ctx) (scrut : EV) (dflt : Nat) (cs : List (EV × Nat)) : Ctx :=
  { c with
    events := c.events ++ [.switchTerm scrut dflt cs]
    switches := c.switches ++ [⟨scrut, dflt, cs⟩] }

/-- Modelled from the spec: `EmitFuncContext::build_positioned_new_block`
allocates a block, runs the body with the cursor positioned in it, and
restores the cursor. -/
def positionedNewBlock {α : Type} (c : Ctx)
    (f : Ctx → Nat → Except EmErr (α × Ctx)) : Except EmErr (α × Ctx) :=
  let p := newBasicBlock c
  let saved := p.2.curBlock
  match f { p.2 with curBlock := p.1 } p.1 with
  | .ok (a, c2) => .ok (a, { c2 with curBlock := saved })
  | .error e => .error e

/-- Modelled from the spec: `EmitFuncContext::build_positioned` runs the
body with the cursor positioned in an existing block and restores the
cursor. -/
def buildPositioned {α : Type} (c : Ctx) (bb : Nat)
    (f : Ctx → Except EmErr (α × Ctx)) : Except EmErr (α × Ctx) :=
  let saved := c.curBlock
  match f { c with curBlock := bb } with
  | .ok (a, c2) => .ok (a, { c2 with curBlock := saved })
  | .error e => .error e

/-- `LLVMSumType::build_get_tag` (src/sum.rs:63-79) at emission time: the
value must be of struct kind (checked against its static type); a tagged
sum extracts field 0 (an integer), an untagged sum yields the constant 0. -/
def buildGetTagE (c : Ctx) (s : LLVMSumType) (v : EV) : Except EmErr (EV × Ctx) :=
  match v.ty with
  | .structT ts =>
    if s.has_tag_field then
      match ts[0]? with
      | some (LLVMType.intT w) =>
        .ok (.ssa (.intT w) c.nextSsa, { c with nextSsa := c.nextSsa + 1 })
      | some _ => .error .notAnInt
      | none => .error .extractOutOfRange
    else
      .ok (.constI 32 0, c)
  | _ => .error .notAStruct

/-- `LLVMSumType::build_untag` (src/sum.rs:85-106) at emission time: the
variant's index is bounds-checked against the struct type's field count
(inkwell checks against the type); the field there must be a struct, and
one fresh value per field of that row is produced. -/
def buildUntagE (c : Ctx) (s : LLVMSumType) (tag : Nat) (v : EV) :
    Except EmErr (List EV × Ctx) :=
  match v.ty with
  | .structT ts =>
    match ts[s.get_variant_index tag]? with
    | some (LLVMType.structT rts) => .ok (freshSsas c rts)
    | some _ => .error .notAStruct
    | none => .error .extractOutOfRange
  | _ => .error .notAStruct

/-- The emission behaviour of a nested dataflow body
(`emit_dataflow_parent` on a Case or DataflowBlock): it receives the body's
input values and its output-promise mailbox and transforms the context.
The engine delegates here (the body may invoke arbitrary registered
handlers) and cannot inspect it. -/
def BodyFn : Type := List EV → Nat → Ctx → Except EmErr Ctx

/-- A `Case` child of a Conditional: the row of its input boundary node,
and the emission behaviour of its dataflow body. -/
structure CaseNode where
  inputRow : List LLVMType
  body : BodyFn

/-- A `Conditional` node: its selector sum type (the unique sum in its
first input's type, `get_exactly_one_sum_type`), its output row
(`dataflow_signature().output`), and its Case children in order. -/
structure ConditionalNode where
  selector : HugrSumType
  outputRow : List LLVMType
  cases : List CaseNode

/-- The per-case closure of `ConditionalEmitter::emit`
(src/emit/ops.rs:209-221): read the case's mailbox, emit the case body
with the exit mailbox as output promise, branch unconditionally to the
exit block, and return `(i, rmb, bb)`. -/
def caseBlockBody (cse : CaseNode) (exitRmb exitBlock caseRmb i : Nat)
    (c : Ctx) (bb : Nat) : Except EmErr ((Nat × Nat × Nat) × Ctx) :=
  match rmbRead c caseRmb with
  | .ok (ins, c) =>
    match cse.body ins exitRmb c with
    | .ok c => .ok ((i, caseRmb, bb), uncondBranch c exitBlock)
    | .error e => .error e
  | .error e => .error e

/-- The per-case loop of `ConditionalEmitter::emit`
(src/emit/ops.rs:201-223): for case `i`, allocate the case's input mailbox
and a block holding the case-block closure; yields `(i, rmb, bb)` per
case. -/
def emitCases (exitRmb exitBlock : Nat) :
    List CaseNode → Nat → Ctx → Except EmErr (List (Nat × Nat × Nat) × Ctx)
  | [], _, c => .ok ([], c)
  | cse :: rest, i, c =>
    let p := newRowMailBox c cse.inputRow
    match positionedNewBlock p.2 (caseBlockBody cse exitRmb exitBlock p.1 i) with
    | .ok (entry, c) =>
      match emitCases exitRmb exitBlock rest (i + 1) c with
      | .ok (entries, c) => .ok (entry :: entries, c)
      | .error e => .error e
    | .error e => .error e

/-- The dispatch-wiring loop of `ConditionalEmitter::emit`
(src/emit/ops.rs:232-240): for each case entry `(i, rmb, bb)`, untag the
selector at `i`, append the passthrough inputs, write the case's mailbox,
and yield `(const i, bb)`. -/
def wireCases (lst : LLVMSumType) (sumInput : EV) (passthrough : List EV) :
    List (Nat × Nat × Nat) → Ctx → Except EmErr (List (EV × Nat) × Ctx)
  | [], c => .ok ([], c)
  | (i, rmb, bb) :: rest, c =>
    match buildUntagE c lst i sumInput with
    | .ok (vs, c) =>
      match rmbWrite c rmb (vs ++ passthrough) with
      | .ok c =>
        match wireCases lst sumInput passthrough rest c with
        | .ok (sw, c) => .ok ((EV.constI 32 (i % 2 ^ 32), bb) :: sw, c)
        | .error e => .error e
      | .error e => .error e
    | .error e => .error e

/-- The exit-block closure of `ConditionalEmitter::emit`
(src/emit/ops.rs:191-199): `outputs.finish(builder, exit_rmb.read_vec(..))`
and return the block. -/
def condExitBody (exitRmb outPromise : Nat) (c : Ctx) (bb : Nat) :
    Except EmErr (Nat × Ctx) :=
  match rmbRead c exitRmb with
  | .ok (vs, c) =>
    match rmbWrite c outPromise vs with
    | .ok c => .ok (bb, c)
    | .error e => .error e
  | .error e => .error e

/-- `ConditionalEmitter::emit` (src/emit/ops.rs:179-246): exit mailbox and
exit block (which forwards the exit mailbox into the output promise), one
mailbox+block pair per declared case with the case body emitted inside,
then the dispatch — `build_get_tag` on the first input, untag-and-write per
case, and `build_switch(tag, switches[0].1, &switches[1..])`.  Besides the
final context it returns the internal `case_values_rmbs_blocks` list (a
ghost output used by the theorems; the Rust function returns `()`). -/
def conditionalEmit (node : ConditionalNode) (inputs : List EV) (outPromise : Nat)
    (c : Ctx) : Except EmErr (List (Nat × Nat × Nat) × Ctx) :=
  let p := newRowMailBox c node.outputRow
  match positionedNewBlock p.2 (condExitBody p.1 outPromise) with
  | .ok (exitBlock, c) =>
    match emitCases p.1 exitBlock node.cases 0 c with
    | .ok (cvrbs, c) =>
      match inputs with
      | [] => .error .indexOutOfBounds
      | sumInput :: passthrough =>
        match buildGetTagE c (LLVMSumType.try_new node.selector) sumInput with
        | .ok (tagv, c) =>
          match wireCases (LLVMSumType.try_new node.selector) sumInput passthrough
              cvrbs c with
          | .ok (sw, c) =>
            match sw with
            | [] => .error .indexOutOfBounds
            | s0 :: srest =>
              .ok (cvrbs, { buildSwitch c tagv s0.2 srest with curBlock := exitBlock })
          | .error e => .error e
        | .error e => .error e
    | .error e => .error e
  | .error e => .error e


/-- A `DataflowBlock` child of a CFG: the identities of its Input and
Output boundary nodes (keys of the context's per-node mailbox cache), the
row of its Input node, its `sum_rows` (one variant per successor edge), its
other (passthrough) outputs, its successors (`output_neighbours`, as
indices into the CFG's child list), and the emission behaviour of its
dataflow body. -/
structure DfbNode where
  inputNodeId : Nat
  outputNodeId : Nat
  inputRow : List LLVMType
  sumRows : List (List LLVMType)
  otherOutputs : List LLVMType
  successors : List Nat
  body : BodyFn

/-- The row of a DataflowBlock's Output boundary node: the branch-selector
sum (`SumType::new(node.sum_rows)`, realized by `llvm_sum_type`) followed
by the other outputs. -/
def DfbNode.outputRow (d : DfbNode) : List LLVMType :=
  .structT (LLVMSumType.try_new ⟨d.sumRows⟩).fieldTypes :: d.otherOutputs

/-- A CFG child: a `DataflowBlock` or the `ExitBlock`. -/
inductive CfgChild where
  | dfb (d : DfbNode)
  | exit

/-- A `CFG` node: its children in hugr order (the entry `DataflowBlock`
first, the `ExitBlock` second) and the CFG's own output types
(`out_value_types`). -/
structure CfgNode where
  children : List CfgChild
  outTypes : List LLVMType

/-- The per-child allocation loop of `CfgEmitter::new`
(src/emit/ops/cfg.rs:47-62): the exit child gets the pre-created exit block
and a fresh output-row mailbox; every other child gets a fresh block and
its Input node's mailbox. -/
def cfgAllocChildren (node : CfgNode) (exitBlock : Nat) :
    List CfgChild → Ctx → List (Nat × Nat) × Ctx
  | [], c => ([], c)
  | .exit :: rest, c =>
    let p := newRowMailBox c node.outTypes
    let q := cfgAllocChildren node exitBlock rest p.2
    ((exitBlock, p.1) :: q.1, q.2)
  | .dfb d :: rest, c =>
    let p := newBasicBlock c
    let q := nodeRmb p.2 d.inputNodeId d.inputRow
    let r := cfgAllocChildren node exitBlock rest q.2
    ((p.1, q.1) :: r.1, r.2)

/-- `CfgEmitter::new` (src/emit/ops/cfg.rs:36-73): create the exit block
first, allocate a (block, mailbox) pair for every child, then identify the
entry and exit children (`get_entry_exit().unwrap()`: the first child must
be a `DataflowBlock` and the second the `ExitBlock`).  The pair list is
positional, aligned with `node.children`. -/
def cfgNew (node : CfgNode) (c : Ctx) : Except EmErr (List (Nat × Nat) × Ctx) :=
  let p := newBasicBlock c
  let q := cfgAllocChildren node p.1 node.children p.2
  match node.children[0]?, node.children[1]? with
  | some (CfgChild.dfb _), some CfgChild.exit => .ok (q.1, q.2)
  | _, _ => .error .cfgShape

/-- `CfgEmitter::get_block_data` (src/emit/ops/cfg.rs:83-93). -/
def getBlockData (bbs : List (Nat × Nat)) (j : Nat) : Except EmErr (Nat × Nat) :=
  match bbs[j]? with
  | some x => .ok x
  | none => .error .cfgShape

/-- The per-successor closure of the `DataflowBlock` emission
(src/emit/ops/cfg.rs:175-183): untag the branch selector at the
successor's tag, append the passthrough outputs, write the successor's
pre-allocated mailbox, branch to its pre-allocated block. -/
def succBranchBody (lst : LLVMSumType) (sel : EV) (others : List EV)
    (tbb trmb tag : Nat) (c : Ctx) (bb : Nat) : Except EmErr (Nat × Ctx) :=
  match buildUntagE c lst tag sel with
  | .ok (vals, c) =>
    match rmbWrite c trmb (vals ++ others) with
    | .ok c => .ok (bb, uncondBranch c tbb)
    | .error e => .error e
  | .error e => .error e

/-- The successor-branch loop of the `DataflowBlock` emission
(src/emit/ops/cfg.rs:171-189): for each successor, in tag order, a fresh
block holding the branch closure; yields `(const tag, branch block)` per
successor. -/
def wireSuccessors (lst : LLVMSumType) (sel : EV) (others : List EV) :
    List (Nat × Nat) → Nat → Ctx → Except EmErr (List (EV × Nat) × Ctx)
  | [], _, c => .ok ([], c)
  | (tbb, trmb) :: rest, tag, c =>
    match positionedNewBlock c (succBranchBody lst sel others tbb trmb tag) with
    | .ok (bb, c) =>
      match wireSuccessors lst sel others rest (tag + 1) c with
      | .ok (sw, c) => .ok ((EV.constI 32 (tag % 2 ^ 32), bb) :: sw, c)
      | .error e => .error e
    | .error e => .error e

/-- The positioned body of the `DataflowBlock` emission
(src/emit/ops/cfg.rs:151-194): fetch the Output node's mailbox, read the
inputs from the child's pre-allocated mailbox, emit the dataflow body,
read the outputs, wire one branch block per successor, and dispatch with
`build_switch(tag_v, tag_bbs[0].1, &tag_bbs[1..])`. -/
def dfbInnerBody (d : DfbNode) (succData : List (Nat × Nat)) (inputsRmb : Nat)
    (c : Ctx) : Except EmErr (List (EV × Nat) × Ctx) :=
  let p := nodeRmb c d.outputNodeId d.outputRow
  match rmbRead p.2 inputsRmb with
  | .ok (ins, c) =>
    match d.body ins p.1 c with
    | .ok c =>
      match rmbRead c p.1 with
      | .ok (outs, c) =>
        match outs with
        | [] => .error .indexOutOfBounds
        | sel :: others =>
          match wireSuccessors (LLVMSumType.try_new ⟨d.sumRows⟩) sel others
              succData 0 c with
          | .ok (tagBbs, c) =>
            match buildGetTagE c (LLVMSumType.try_new ⟨d.sumRows⟩) sel with
            | .ok (tagv, c) =>
              match tagBbs with
              | [] => .error .indexOutOfBounds
              | t0 :: trest => .ok (tagBbs, buildSwitch c tagv t0.2 trest)
            | .error e => .error e
          | .error e => .error e
      | .error e => .error e
    | .error e => .error e
  | .error e => .error e

/-- `impl EmitOp<DataflowBlock> for CfgEmitter` (src/emit/ops/cfg.rs:
134-197): look up the child's pre-allocated block and input mailbox and
every successor's data, then run the positioned body in the child's
block.  Returns the `tag_bbs` list as a ghost output. -/
def dfbEmit (bbs : List (Nat × Nat)) (ci : Nat) (d : DfbNode) (c : Ctx) :
    Except EmErr (List (EV × Nat) × Ctx) :=
  match bbs[ci]? with
  | none => .error .cfgShape
  | some (bb, inputsRmb) =>
    match d.successors.mapM (getBlockData bbs) with
    | .error e => .error e
    | .ok succData => buildPositioned c bb (dfbInnerBody d succData inputsRmb)

/-- The positioned body of the `ExitBlock` emission
(src/emit/ops/cfg.rs:203-206): `outputs.finish(builder,
inputs_rmb.read_vec(..))`. -/
def exitInnerBody (inputsRmb outPromise : Nat) (c : Ctx) :
    Except EmErr (Unit × Ctx) :=
  match rmbRead c inputsRmb with
  | .ok (vs, c) =>
    match rmbWrite c outPromise vs with
    | .ok c => .ok ((), c)
    | .error e => .error e
  | .error e => .error e

/-- `impl EmitOp<ExitBlock> for CfgEmitter` (src/emit/ops/cfg.rs:199-208):
positioned in the exit block, forward the exit child's input mailbox into
the CFG's output promise. -/
def exitEmit (bbs : List (Nat × Nat)) (ci : Nat) (outPromise : Nat) (c : Ctx) :
    Except EmErr (Unit × Ctx) :=
  match bbs[ci]? with
  | none => .error .cfgShape
  | some (bb, inputsRmb) => buildPositioned c bb (exitInnerBody inputsRmb outPromise)

/-- The child-emission loop of `CfgEmitter::emit_children`
(src/emit/ops/cfg.rs:108-125): delegate each child to the `DataflowBlock`
or `ExitBlock` emission. -/
def cfgEmitChildrenLoop (bbs : List (Nat × Nat)) (outPromise : Nat) :
    List CfgChild → Nat → Ctx → Except EmErr Ctx
  | [], _, c => .ok c
  | .dfb d :: rest, ci, c =>
    match dfbEmit bbs ci d c with
    | .ok (_, c) => cfgEmitChildrenLoop bbs outPromise rest (ci + 1) c
    | .error e => .error e
  | .exit :: rest, ci, c =>
    match exitEmit bbs ci outPromise c with
    | .ok (_, c) => cfgEmitChildrenLoop bbs outPromise rest (ci + 1) c
    | .error e => .error e

/-- `CfgEmitter::emit_children` (src/emit/ops/cfg.rs:97-131): write the
CFG's inputs into the entry child's mailbox and branch to its block; emit
every child; finally position the cursor at the end of the exit block. -/
def cfgEmitChildren (node : CfgNode) (bbs : List (Nat × Nat)) (inputs : List EV)
    (outPromise : Nat) (c : Ctx) : Except EmErr Ctx :=
  match bbs[0]? with
  | none => .error .cfgShape
  | some (entryBb, inputsRmb) =>
    match rmbWrite c inputsRmb inputs with
    | .ok c =>
      match cfgEmitChildrenLoop bbs outPromise node.children 0 (uncondBranch c entryBb) with
      | .ok c =>
        match bbs[1]? with
        | none => .error .cfgShape
        | some (exitBb, _) => .ok { c with curBlock := exitBb }
      | .error e => .error e
    | .error e => .error e

/-- `emit_cfg` (src/emit/ops.rs:425-430):
`CfgEmitter::new(context, args)?.emit_children()`.  Returns the
(block, mailbox) table as a ghost output. -/
def cfgEmit (node : CfgNode) (inputs : List EV) (outPromise : Nat) (c : Ctx) :
    Except EmErr (List (Nat × Nat) × Ctx) :=
  match cfgNew node c with
  | .ok (bbs, c1) =>
    match cfgEmitChildren node bbs inputs outPromise c1 with
    | .ok c2 => .ok (bbs, c2)
    | .error e => .error e
  | .error e => .error e

/-! ## `emit_call` (src/emit/ops.rs:540-575) -/

/-- The outcome of a lowering step: success, a recoverable error returned
to the caller, or a Rust panic (`todo!` or `expect`, aborting the
process). -/
inductive Outcome (α : Type) where
  | ok (a : α)
  | error (e : EmErr)
  | panicked (msg : String)

/-- The kind of node the Call's static function input is linked to. -/
inductive FuncNodeKind where
  | decl (name : Nat)
  | defn (name : Nat)
  | otherOp

/-- A `Call` node: the type parameters of the called function's type
(`called_function_type().params()`), the linked function node, and the
output port types (`args.outputs` arity). -/
structure CallNode where
  typeParams : List Nat
  funcNode : FuncNodeKind
  outTypes : List LLVMType

/-- `emit_call` (src/emit/ops.rs:540-575).  A call of a function whose type
has type parameters hits `todo!("Call of generic function")` — a panic that
aborts the process — before anything else is done.  Otherwise the callee
must be a `FuncDecl` or `FuncDefn` (else an error), the call is emitted,
and its results are unpacked according to the output arity (0 = void,
1 = the value itself, n ≥ 2 = one `extractvalue` per field of the returned
struct) and passed to `args.outputs.finish`. -/
def emit_call (node : CallNode) (outPromise : Nat) (c : Ctx) : Outcome Ctx :=
  if node.typeParams ≠ [] then
    .panicked "not yet implemented: Call of generic function"
  else
    match node.funcNode with
    | .otherOp => .error .notDeclOrDefn
    | .decl _ | .defn _ =>
      match node.outTypes with
      | [] =>
        match rmbWrite c outPromise [] with
        | .ok c => .ok c
        | .error e => .error e
      | [t] =>
        let p := freshSsas c [t]
        match rmbWrite p.2 outPromise p.1 with
        | .ok c => .ok c
        | .error e => .error e
      | ts =>
        let p := freshSsas c ts
        match rmbWrite p.2 outPromise p.1 with
        | .ok c => .ok c
        | .error e => .error e


/-- The `(const tag, block)` dispatch table built by the wiring loops:
blocks paired with consecutive `i32` tag constants starting at `start`. -/
def tagCases (blocks : List Nat) (start : Nat) : List (EV × Nat) :=
  match blocks with
  | [] => []
  | b :: bs => (EV.constI 32 (start % 2 ^ 32), b) :: tagCases bs (start + 1)

/-- A body that only ever appends to the event log (every context
primitive does). -/
def AppendsOnly (f : BodyFn) : Prop :=
  ∀ ins mb c c2, f ins mb c = .ok c2 → ∃ tail, c2.events = c.events ++ tail

/-- Context well-formedness: every cached per-node mailbox was actually
allocated (its allocation event is in the log). -/
def CacheWF (c : Ctx) : Prop :=
  ∀ n mb, c.nodeMailbox.lookup n = some mb → Event.allocMailbox mb ∈ c.events

/-- Mailbox-table well-formedness: every registered mailbox id is below
the allocation counter (fresh allocations never collide). -/
def MailboxWF (c : Ctx) : Prop :=
  ∀ p ∈ c.mailboxRow, p.1 < c.nextMailbox

/-- A body whose emission always succeeds and behaves like real emitted
code with respect to the mailbox table: registered mailboxes keep their
rows, the allocation counter never decreases, and well-formedness is
preserved. -/
def GoodBody (f : BodyFn) : Prop :=
  ∀ ins mb c, ∃ c2, f ins mb c = .ok c2 ∧
    (∀ k row, c.mailboxRow.lookup k = some row → c2.mailboxRow.lookup k = some row) ∧
    c.nextMailbox ≤ c2.nextMailbox ∧
    (MailboxWF c → MailboxWF c2)


/-- The dataflow body of an empty Case or DataflowBlock (an Input boundary
feeding the Output boundary directly): forward the inputs into the output
promise. -/
def forwardBody : BodyFn := fun ins mb c => rmbWrite c mb ins


/-- `c2` preserves `c`'s mailbox table: registered mailboxes keep their
rows, the allocation counter does not decrease, and well-formedness is
preserved.  Every emission step satisfies this. -/
def MbPreserved (c c2 : Ctx) : Prop :=
  (∀ k row, c.mailboxRow.lookup k = some row → c2.mailboxRow.lookup k = some row) ∧
  c.nextMailbox ≤ c2.nextMailbox ∧
  (MailboxWF c → MailboxWF c2)


/-- The emission behaviour of a dataflow body that contributes nothing to
the context (the simplest well-behaved body instance). -/
def noOpBody : BodyFn := fun _ _ c => .ok c


/-- `c2`'s event log extends `c`'s by appending (nothing already recorded
is reordered or removed). -/
def EvAppend (c c2 : Ctx) : Prop := ∃ tail, c2.events = c.events ++ tail

-- ====================== THEOREMS ======================

section SumLemmas

/-- Extraction from a plain struct value returns the field. -/
theorem build_extract_value_structV (fs : List LLVMValue) (i : Nat) (h : i < fs.length) :
    build_extract_value (.structV fs) i = .ok fs[i] := by
  simp [build_extract_value, fieldsOf?, h]

/-- Insertion into an aggregate value with known fields. -/
theorem build_insert_value_fields {v : LLVMValue} {base : List LLVMValue} (x : LLVMValue)
    (i : Nat) (hf : fieldsOf? v = some base) (h : i < base.length) :
    build_insert_value v x i = .ok (.structV (base.set i x)) := by
  simp [build_insert_value, hf, h]

/-- `(l.set i v).take (i+1) = l.take i ++ [v]` for an in-bounds index. -/
theorem take_succ_set {α : Type} (l : List α) (i : Nat) (v : α) (h : i < l.length) :
    (l.set i v).take (i + 1) = l.take i ++ [v] := by
  induction l generalizing i with
  | nil => simp at h
  | cons a l ih =>
    cases i with
    | zero => simp
    | succ n =>
      simp only [List.set_cons_succ, List.take_succ_cons, List.cons_append, List.cons.injEq,
        true_and]
      exact ih n (by simpa using h)

/-- The enumerate-insert loop of `build_tag`, run over the whole suffix of
the row, produces a value whose fields are the inserted values. -/
theorem insertAll_spec (vs : List LLVMValue) :
    ∀ (acc : LLVMValue) (base : List LLVMValue) (i : Nat),
      fieldsOf? acc = some base → base.length = i + vs.length →
      ∃ rv, LLVMSumType.insertAll acc i vs = .ok rv ∧
        fieldsOf? rv = some (base.take i ++ vs) := by
  induction vs with
  | nil =>
    intro acc base i hf hl
    refine ⟨acc, rfl, ?_⟩
    simp only [List.length_nil, Nat.add_zero] at hl
    rw [List.append_nil, ← hl, List.take_length]
    exact hf
  | cons v vs ih =>
    intro acc base i hf hl
    simp only [List.length_cons] at hl
    have hlt : i < base.length := by omega
    have hins := build_insert_value_fields v i hf hlt
    have hrec := ih (.structV (base.set i v)) (base.set i v) (i + 1) rfl
      (by simp only [List.length_set]; omega)
    obtain ⟨rv, hrv, hrvf⟩ := hrec
    refine ⟨rv, ?_, ?_⟩
    · simp only [LLVMSumType.insertAll, hins, Except.bind]
      exact hrv
    · rw [hrvf, take_succ_set base i v hlt]
      simp

/-- Reading all fields of an aggregate with known fields, in index order,
yields exactly those fields. -/
theorem mapM_extract_range {inner : LLVMValue} {fs : List LLVMValue}
    (hf : fieldsOf? inner = some fs) :
    ∀ (i n : Nat), i + n = fs.length →
      (List.range' i n).mapM (fun j => build_extract_value inner j) = .ok (fs.drop i) := by
  intro i n
  induction n generalizing i with
  | zero =>
    intro h
    simp only [Nat.add_zero] at h
    subst h
    rw [List.drop_length]
    rfl
  | succ n ih =>
    intro h
    have hi : i < fs.length := by omega
    have hext : build_extract_value inner i = .ok fs[i] := by
      simp [build_extract_value, hf, hi]
    have := ih (i + 1) (by omega)
    rw [List.range'_succ, List.drop_eq_getElem_cons hi]
    simp only [List.mapM_cons, hext, this]
    rfl

end SumLemmas


section SumTheorems

/-- Reduction of a bind whose first component succeeded. -/
theorem ok_bind {ε α β : Type} (a : α) (f : α → Except ε β) :
    (Except.ok a : Except ε α) >>= f = f a := rfl

/-- `num_fields` on a valid tag returns the variant row's length. -/
theorem num_fields_ok (st : HugrSumType) (tag : Nat) (row : List LLVMType)
    (h : st.variants[tag]? = some row) :
    (LLVMSumType.try_new st).num_fields tag = .ok row.length := by
  simp [LLVMSumType.num_fields, LLVMSumType.get_variant_typerow, LLVMSumType.try_new, h,
    Except.map]

/-- The field of the sum struct at a variant's index is that variant's row
struct. -/
theorem fieldTypes_at_variant_index (st : HugrSumType) (tag : Nat) (row : List LLVMType)
    (h : st.variants[tag]? = some row) :
    (LLVMSumType.try_new st).fieldTypes[(LLVMSumType.try_new st).get_variant_index tag]? =
      some (.structT row) := by
  by_cases htag : sum_type_has_tag_field st
  · simp [LLVMSumType.try_new, LLVMSumType.get_variant_index, LLVMSumType.has_tag_field, htag,
      List.getElem?_map, h]
  · simp [LLVMSumType.try_new, LLVMSumType.get_variant_index, LLVMSumType.has_tag_field, htag,
      List.getElem?_map, h]

/-- `build_tag` on a wrong field count fails with the shape error. -/
theorem build_tag_shape_error (st : HugrSumType) (tag : Nat) (vs : List LLVMValue)
    (row : List LLVMType) (hrow : st.variants[tag]? = some row)
    (hne : vs.length ≠ row.length) :
    (LLVMSumType.try_new st).build_tag tag vs =
      .error (.shapeError row.length vs.length) := by
  have h1 := num_fields_ok st tag row hrow
  rw [LLVMSumType.build_tag, h1, ok_bind]
  rw [if_pos (Ne.symm hne)]

/-- `build_tag` on a valid tag and a row of matching length: the result is a
struct value holding the tag constant at field 0 (when the sum is tagged)
and a struct of exactly the given fields at the variant's slot. -/
theorem build_tag_ok (st : HugrSumType) (tag : Nat) (vs : List LLVMValue)
    (row : List LLVMType) (hrow : st.variants[tag]? = some row)
    (hlen : vs.length = row.length) :
    ∃ F rv,
      (LLVMSumType.try_new st).build_tag tag vs = .ok (.structV F) ∧
      F.length = (LLVMSumType.try_new st).fieldTypes.length ∧
      ((LLVMSumType.try_new st).has_tag_field = true → F[0]? = some (constInt 32 tag)) ∧
      F[(LLVMSumType.try_new st).get_variant_index tag]? = some rv ∧
      fieldsOf? rv = some vs := by
  set s := LLVMSumType.try_new st with hs
  have h1 := num_fields_ok st tag row hrow
  have h2 := fieldTypes_at_variant_index st tag row hrow
  have hvi : s.get_variant_index tag < s.fieldTypes.length :=
    (List.getElem?_eq_some.mp h2).1
  have hrowv : fieldsOf? (.undef (.structT row)) = some (row.map .undef) := rfl
  obtain ⟨rv, hrv, hrvf⟩ := insertAll_spec vs (.undef (.structT row)) (row.map .undef) 0
    hrowv (by simp [hlen])
  simp only [List.take_zero, List.nil_append] at hrvf
  have hft : s.getFieldType (s.get_variant_index tag) = .ok (.structT row) := by
    rw [LLVMSumType.getFieldType, h2]
  by_cases htag : s.has_tag_field
  · -- tagged sum: poison, insert the tag at 0, insert the row at its index
    have hne0 : 0 < s.fieldTypes.length := by omega
    have hins0 : build_insert_value s.get_poison (constInt 32 tag) 0 =
        .ok (.structV ((s.fieldTypes.map .poison).set 0 (constInt 32 tag))) := by
      apply build_insert_value_fields
      · rfl
      · simpa using hne0
    have hinsvi : build_insert_value
        (.structV ((s.fieldTypes.map .poison).set 0 (constInt 32 tag))) rv
        (s.get_variant_index tag) =
        .ok (.structV (((s.fieldTypes.map .poison).set 0 (constInt 32 tag)).set
          (s.get_variant_index tag) rv)) := by
      apply build_insert_value_fields
      · rfl
      · simp only [List.length_set, List.length_map]
        exact hvi
    refine ⟨((s.fieldTypes.map .poison).set 0 (constInt 32 tag)).set
      (s.get_variant_index tag) rv, rv, ?_, ?_, ?_, ?_, hrvf⟩
    · rw [LLVMSumType.build_tag, h1, ok_bind, if_neg (by simp [hlen]), hft, ok_bind,
        LLVMSumType.asStructRow, ok_bind, hrv, ok_bind, if_pos htag, hins0, ok_bind]
      exact hinsvi
    · simp
    · intro _
      have hvne : s.get_variant_index tag ≠ 0 := by
        simp only [LLVMSumType.get_variant_index, htag, if_true]
        omega
      rw [List.getElem?_set_ne hvne]
      exact List.getElem?_set_eq_of_lt _ (by simpa using hne0)
    · exact List.getElem?_set_eq_of_lt _ (by simp only [List.length_set, List.length_map]; exact hvi)
  · -- single-variant sum: poison, insert the row at its index
    have hinsvi : build_insert_value s.get_poison rv (s.get_variant_index tag) =
        .ok (.structV ((s.fieldTypes.map .poison).set (s.get_variant_index tag) rv)) := by
      apply build_insert_value_fields
      · rfl
      · simpa using hvi
    refine ⟨(s.fieldTypes.map .poison).set (s.get_variant_index tag) rv, rv,
      ?_, ?_, ?_, ?_, hrvf⟩
    · rw [LLVMSumType.build_tag, h1, ok_bind, if_neg (by simp [hlen]), hft, ok_bind,
        LLVMSumType.asStructRow, ok_bind, hrv, ok_bind, if_neg (by simp [htag]), ok_bind]
      exact hinsvi
    · simp
    · intro hcontr
      rw [hcontr] at htag
      simp at htag
    · exact List.getElem?_set_eq_of_lt _ (by simpa using hvi)

end SumTheorems


section SumClaims

/-- C3: sum round-trip.  For every sum type, every valid variant index
`tag`, and every field list whose length matches variant `tag`'s row,
`build_untag tag (build_tag tag fields)` returns exactly `fields`, field by
field in order. -/
theorem C3_sum_round_trip (st : HugrSumType) (tag : Nat) (vs : List LLVMValue)
    (row : List LLVMType) (hrow : st.variants[tag]? = some row)
    (hlen : vs.length = row.length) :
    ∀ w, (LLVMSumType.try_new st).build_tag tag vs = .ok w →
      (LLVMSumType.try_new st).build_untag tag w = .ok vs := by
  obtain ⟨F, rv, hok, hF, _, hFvi, hrvf⟩ := build_tag_ok st tag vs row hrow hlen
  intro w hw
  rw [hok] at hw
  injection hw with hw
  subst hw
  obtain ⟨hvi, hgv⟩ := List.getElem?_eq_some.mp hFvi
  have hext : build_extract_value (.structV F)
      ((LLVMSumType.try_new st).get_variant_index tag) = .ok rv := by
    rw [build_extract_value_structV F _ hvi, hgv]
  simp only [LLVMSumType.build_untag, isStructValue, if_true, hext, ok_bind, hrvf]
  rw [List.range_eq_range']
  have := mapM_extract_range hrvf 0 vs.length (by omega)
  simpa using this

/-- C3 witness: a concrete 2-variant sum with variant 1 = two `i8` fields;
tagging `[3, 5]` at tag 1 and untagging returns `[3, 5]`. -/
theorem C3_witness :
    (LLVMSumType.try_new ⟨[[], [LLVMType.intT 8, LLVMType.intT 8]]⟩).build_untag 1
        (.structV [.intV 32 1, .poison (.structT []),
          .structV [.intV 8 3, .intV 8 5]]) = .ok [.intV 8 3, .intV 8 5] :=
  C3_sum_round_trip ⟨[[], [LLVMType.intT 8, LLVMType.intT 8]]⟩ 1
    [.intV 8 3, .intV 8 5] [LLVMType.intT 8, LLVMType.intT 8] rfl rfl _ rfl

/-- C4: tag fidelity.  `build_get_tag (build_tag tag fields)` returns `tag`
for every valid tag; a 1-variant sum has no tag storage and `build_get_tag`
returns the constant `0` on every (struct) value; the tag storage (leading
`i32` field) is present in the layout exactly when the sum has at least 2
variants. -/
theorem C4_tag_fidelity (st : HugrSumType) (hw32 : st.num_variants < 2 ^ 32) :
    (∀ tag vs row w, st.variants[tag]? = some row → vs.length = row.length →
        (LLVMSumType.try_new st).build_tag tag vs = .ok w →
        (LLVMSumType.try_new st).build_get_tag w = .ok (.intV 32 tag)) ∧
    (st.num_variants = 1 →
      ∀ v, isStructValue v = true →
        (LLVMSumType.try_new st).build_get_tag v = .ok (.intV 32 0)) ∧
    ((LLVMSumType.try_new st).has_tag_field = true ↔ 2 ≤ st.num_variants) ∧
    (LLVMSumType.try_new st).fieldTypes =
      (if 2 ≤ st.num_variants then [LLVMType.intT 32] else []) ++
        st.variants.map LLVMType.structT := by
  have htag_iff : (LLVMSumType.try_new st).has_tag_field = true ↔ 2 ≤ st.num_variants := by
    simp [LLVMSumType.has_tag_field, LLVMSumType.try_new, sum_type_has_tag_field]
  have hlayout : (LLVMSumType.try_new st).fieldTypes =
      (if 2 ≤ st.num_variants then [LLVMType.intT 32] else []) ++
        st.variants.map LLVMType.structT := by
    simp [LLVMSumType.try_new, sum_type_has_tag_field]
  refine ⟨?_, ?_, htag_iff, hlayout⟩
  · intro tag vs row w hrow hlen hw
    obtain ⟨F, rv, hok, hF, htagF, hFvi, hrvf⟩ := build_tag_ok st tag vs row hrow hlen
    rw [hok] at hw
    injection hw with hw
    subst hw
    have htaglt : tag < st.num_variants := (List.getElem?_eq_some.mp hrow).1
    have hmod : tag % 2 ^ 32 = tag := Nat.mod_eq_of_lt (by omega)
    by_cases htag : (LLVMSumType.try_new st).has_tag_field
    · obtain ⟨h0, hg0⟩ := List.getElem?_eq_some.mp (htagF htag)
      have hext : build_extract_value (.structV F) 0 = .ok (constInt 32 tag) := by
        rw [build_extract_value_structV F 0 h0, hg0]
      simp only [LLVMSumType.build_get_tag, isStructValue, if_true, htag, hext, ok_bind]
      simp [intoIntValue, constInt, hmod]
      omega
    · have h1 : st.num_variants < 2 := by
        by_contra hcontra
        exact htag (htag_iff.mpr (by omega))
      have htag0 : tag = 0 := by omega
      simp only [LLVMSumType.build_get_tag, isStructValue, if_true, htag, if_false]
      simp [constInt, htag0]
  · intro h1 v hv
    have htagf : (LLVMSumType.try_new st).has_tag_field = false := by
      rw [← Bool.not_eq_true]
      intro hcontra
      have := htag_iff.mp hcontra
      omega
    simp [LLVMSumType.build_get_tag, hv, htagf, constInt]

/-- C4 witness: with the concrete 2-variant sum, reading back the tag of the
value built at tag 1 returns 1. -/
theorem C4_witness :
    (LLVMSumType.try_new ⟨[[], [LLVMType.intT 8, LLVMType.intT 8]]⟩).build_get_tag
        (.structV [.intV 32 1, .poison (.structT []),
          .structV [.intV 8 3, .intV 8 5]]) = .ok (.intV 32 1) :=
  (C4_tag_fidelity ⟨[[], [LLVMType.intT 8, LLVMType.intT 8]]⟩
      (by norm_num [HugrSumType.num_variants])).1
    1 [.intV 8 3, .intV 8 5] [LLVMType.intT 8, LLVMType.intT 8] _ rfl rfl rfl

/-- C7: `build_tag tag fields` fails with the shape error exactly when the
number of fields differs from variant `tag`'s declared row length; when the
lengths agree it succeeds, writing the tag storage (when present) and the
variant's row into the result. -/
theorem C7_build_tag_shape (st : HugrSumType) (tag : Nat) (row : List LLVMType)
    (hrow : st.variants[tag]? = some row) :
    (∀ vs : List LLVMValue, vs.length ≠ row.length →
        (LLVMSumType.try_new st).build_tag tag vs =
          .error (.shapeError row.length vs.length)) ∧
    (∀ vs : List LLVMValue, vs.length = row.length →
        ∃ F rv, (LLVMSumType.try_new st).build_tag tag vs = .ok (.structV F) ∧
          F.length = (LLVMSumType.try_new st).fieldTypes.length ∧
          ((LLVMSumType.try_new st).has_tag_field = true →
            F[0]? = some (constInt 32 tag)) ∧
          F[(LLVMSumType.try_new st).get_variant_index tag]? = some rv ∧
          fieldsOf? rv = some vs) :=
  ⟨fun vs hne => build_tag_shape_error st tag vs row hrow hne,
   fun vs hlen => build_tag_ok st tag vs row hrow hlen⟩

/-- C7 witness: with the concrete 2-variant sum, tagging one field at tag 1
(which declares two) fails with the shape error, and tagging two fields
succeeds. -/
theorem C7_witness :
    (LLVMSumType.try_new ⟨[[], [LLVMType.intT 8, LLVMType.intT 8]]⟩).build_tag 1
        [.intV 8 3] = .error (.shapeError 2 1) ∧
    ∃ F rv, (LLVMSumType.try_new ⟨[[], [LLVMType.intT 8, LLVMType.intT 8]]⟩).build_tag 1
        [.intV 8 3, .intV 8 5] = .ok (.structV F) ∧
      F.length = (LLVMSumType.try_new
        ⟨[[], [LLVMType.intT 8, LLVMType.intT 8]]⟩).fieldTypes.length ∧
      ((LLVMSumType.try_new ⟨[[], [LLVMType.intT 8, LLVMType.intT 8]]⟩).has_tag_field = true →
        F[0]? = some (constInt 32 1)) ∧
      F[(LLVMSumType.try_new ⟨[[], [LLVMType.intT 8, LLVMType.intT 8]]⟩).get_variant_index 1]? =
        some rv ∧
      fieldsOf? rv = some [.intV 8 3, .intV 8 5] :=
  ⟨(C7_build_tag_shape ⟨[[], [LLVMType.intT 8, LLVMType.intT 8]]⟩ 1
      [LLVMType.intT 8, LLVMType.intT 8] rfl).1 [.intV 8 3] (by norm_num),
   (C7_build_tag_shape ⟨[[], [LLVMType.intT 8, LLVMType.intT 8]]⟩ 1
      [LLVMType.intT 8, LLVMType.intT 8] rfl).2 [.intV 8 3, .intV 8 5] rfl⟩

end SumClaims


section RegistryClaims

/-- Registrations whose keys all differ from `key` do not change what
`key` looks up to. -/
theorem add_ops_lookup_other {P V E Op : Type} (regs : List (String × String × Op))
    (key : String) (hregs : ∀ r ∈ regs, opKey r.1 r.2.1 ≠ key) :
    ∀ b : CodegenExtensionsBuilder P V E Op,
      (b.add_ops regs).ops.lookup key = b.ops.lookup key := by
  induction regs with
  | nil => intro b; rfl
  | cons r regs ih =>
    intro b
    have hr : opKey r.1 r.2.1 ≠ key := hregs r (List.mem_cons_self r regs)
    have hrest : ∀ q ∈ regs, opKey q.1 q.2.1 ≠ key :=
      fun q hq => hregs q (List.mem_cons_of_mem r hq)
    have hstep : (b.add_op r.1 r.2.1 r.2.2).ops.lookup key = b.ops.lookup key := by
      have : (key == opKey r.1 r.2.1) = false := beq_false_of_ne (Ne.symm hr)
      simp [CodegenExtensionsBuilder.add_op, List.lookup, this]
    calc (b.add_ops (r :: regs)).ops.lookup key
        = ((b.add_op r.1 r.2.1 r.2.2).add_ops regs).ops.lookup key := rfl
      _ = (b.add_op r.1 r.2.1 r.2.2).ops.lookup key := ih hrest _
      _ = b.ops.lookup key := hstep

/-- C6: registry overwrite and lookup.  Registering `H1` then `H2` under
the same (extension id, op name) key and then looking the key up returns
`H2` (last write wins; the earlier handler is silently shadowed, not an
error); looking up a key under which no handler was ever registered returns
the "Unknown op" lookup error. -/
theorem C6_registry_overwrite_lookup {P V E Op : Type} :
    (∀ (b : CodegenExtensionsBuilder P V E Op) (ext op : String) (h1 h2 : Op),
      ((b.add_op ext op h1).add_op ext op h2).emitter (opKey ext op) = .ok h2) ∧
    (∀ (regs : List (String × String × Op)) (ext op : String),
      (∀ r ∈ regs, opKey r.1 r.2.1 ≠ opKey ext op) →
      ((@CodegenExtensionsBuilder.empty P V E Op).add_ops
          regs).emitter (opKey ext op) = .error (.unknownOp (opKey ext op))) := by
  constructor
  · intro b ext op h1 h2
    simp [CodegenExtensionsBuilder.emitter, CodegenExtensionsBuilder.add_op, List.lookup]
  · intro regs ext op hregs
    have h := add_ops_lookup_other regs (opKey ext op) hregs
      (@CodegenExtensionsBuilder.empty P V E Op)
    rw [CodegenExtensionsBuilder.emitter, h]
    rfl

/-- C6 witness: registering handlers `1` then `2` under `("arith", "iadd")`
and looking that key up yields `2`; looking up `("arith", "imul")` in a
registry that only ever saw `("arith", "iadd")` yields the lookup error. -/
theorem C6_witness :
    (((@CodegenExtensionsBuilder.empty Unit Unit Unit Nat).add_op "arith" "iadd" 1).add_op "arith" "iadd" 2).emitter
        (opKey "arith" "iadd") = .ok 2 ∧
    ((@CodegenExtensionsBuilder.empty Unit Unit Unit Nat).add_ops [("arith", "iadd", 1)]).emitter (opKey "arith" "imul") =
      .error (.unknownOp (opKey "arith" "imul")) :=
  ⟨C6_registry_overwrite_lookup.1 _ "arith" "iadd" 1 2,
   C6_registry_overwrite_lookup.2 [("arith", "iadd", 1)] "arith" "imul"
     (by intro r hr; simp at hr; subst hr; decide)⟩

/-- C5: `load_constant`.  (i) For a constant whose kind was registered, the
handler tried is the one installed by the (latest) registration for that
kind — with the map semantics exactly one handler per kind exists — and its
success or failure is the overall result.  (ii) A constant of an
unregistered kind fails with the "Unknown CustomConst" lookup error.
(iii) The outcome depends only on what is registered for the constant's own
kind, never on handlers registered for other kinds. -/
theorem C5_load_constant {P V E Op : Type} :
    (∀ (b : CodegenExtensionsBuilder P V E Op) (k : Nat)
        (h : CustomConst P → Except E V) (c : CustomConst P),
      c.typeId = k →
      (b.add_custom_const k h).emit_load_constant c = (h c).mapError RegError.handler) ∧
    (∀ (b : CodegenExtensionsBuilder P V E Op) (c : CustomConst P),
      b.consts.lookup c.typeId = none →
      b.emit_load_constant c = .error (.unknownCustomConst c.typeId)) ∧
    (∀ (b bb : CodegenExtensionsBuilder P V E Op) (c : CustomConst P),
      b.consts.lookup c.typeId = bb.consts.lookup c.typeId →
      b.emit_load_constant c = bb.emit_load_constant c) := by
  refine ⟨?_, ?_, ?_⟩
  · intro b k h c hk
    subst hk
    simp [CodegenExtensionsBuilder.emit_load_constant,
      CodegenExtensionsBuilder.add_custom_const, List.lookup]
  · intro b c hnone
    rw [CodegenExtensionsBuilder.emit_load_constant, hnone]
  · intro b bb c heq
    rw [CodegenExtensionsBuilder.emit_load_constant,
      CodegenExtensionsBuilder.emit_load_constant, heq]

/-- C5 witness: registering a handler for kind `7` and loading a constant
of kind `7` runs that handler; loading a constant of kind `9` from the
empty registry yields the lookup error. -/
theorem C5_witness :
    ((@CodegenExtensionsBuilder.empty Nat Nat Unit Unit).add_custom_const 7 (fun c => .ok c.payload)).emit_load_constant
        ⟨7, 42⟩ = .ok 42 ∧
    (@CodegenExtensionsBuilder.empty Nat Nat Unit Unit).emit_load_constant ⟨9, 0⟩ = .error (.unknownCustomConst 9) :=
  ⟨C5_load_constant.1 _ 7 (fun c => .ok c.payload) ⟨7, 42⟩ rfl,
   C5_load_constant.2.1 _ ⟨9, 0⟩ rfl⟩

end RegistryClaims


section TypeMapClaims

variable {Inv Out SumOut FuncOut E : Type} {M : TypeMapping Inv Out SumOut FuncOut E}
variable {hooks : TypeHooks Inv Out E} {inv : Inv}

/-- Row evaluation is functional when evaluation of each member is. -/
theorem rowEval_det_of (ts : List HType)
    (hdet : ∀ t ∈ ts, ∀ r1 r2, MapEval M hooks inv t r1 → MapEval M hooks inv t r2 → r1 = r2) :
    ∀ os1 os2, RowEval M hooks inv ts os1 → RowEval M hooks inv ts os2 → os1 = os2 := by
  induction ts with
  | nil =>
    intro os1 os2 h1 h2
    cases h1
    cases h2
    rfl
  | cons t ts ih =>
    intro os1 os2 h1 h2
    cases h1 with
    | cons _ _ r1 rs1 hm1 hr1 =>
      cases h2 with
      | cons _ _ r2 rs2 hm2 hr2 =>
        rw [hdet t (List.mem_cons_self t ts) r1 r2 hm1 hm2,
          ih (fun u hu => hdet u (List.mem_cons_of_mem t hu)) rs1 rs2 hr1 hr2]

/-- Rows evaluation is functional when evaluation of each member is. -/
theorem rowsEval_det_of (rows : List (List HType))
    (hdet : ∀ r ∈ rows, ∀ u ∈ r, ∀ a b,
      MapEval M hooks inv u a → MapEval M hooks inv u b → a = b) :
    ∀ os1 os2, RowsEval M hooks inv rows os1 → RowsEval M hooks inv rows os2 → os1 = os2 := by
  induction rows with
  | nil =>
    intro os1 os2 h1 h2
    cases h1
    cases h2
    rfl
  | cons r rows ih =>
    intro os1 os2 h1 h2
    cases h1 with
    | cons _ _ o1 os1 hr1 hrs1 =>
      cases h2 with
      | cons _ _ o2 os2 hr2 hrs2 =>
        rw [rowEval_det_of r (hdet r (List.mem_cons_self r rows)) o1 o2 hr1 hr2,
          ih (fun q hq => hdet q (List.mem_cons_of_mem r hq)) os1 os2 hrs1 hrs2]

/-- Determinism of `MapEval`, by strong induction on the size of the type. -/
theorem mapEval_det_aux (n : Nat) :
    ∀ t : HType, sizeOf t ≤ n → ∀ r1 r2,
      MapEval M hooks inv t r1 → MapEval M hooks inv t r2 → r1 = r2 := by
  induction n with
  | zero =>
    intro t ht
    exfalso
    have hpos : 0 < sizeOf t := by cases t <;> simp
    omega
  | succ n ih =>
    intro t ht r1 r2 h1 h2
    cases h1 with
    | ext_hook ext name handler r hl hh =>
      cases h2 with
      | ext_hook _ _ handler2 r2 hl2 hh2 =>
        rw [hl] at hl2
        injection hl2 with he
        subst he
        rw [hh] at hh2
        injection hh2
      | ext_default _ _ _ hl2 _ =>
        rw [hl] at hl2
        cases hl2
    | ext_default ext name r hl hd =>
      cases h2 with
      | ext_hook _ _ handler2 r2 hl2 hh2 =>
        rw [hl] at hl2
        cases hl2
      | ext_default _ _ _ _ hd2 =>
        rw [hd] at hd2
        injection hd2
    | sum variants outs sr hrows hsum =>
      cases h2 with
      | sum _ outs2 sr2 hrows2 hsum2 =>
        have hsz : sizeOf (HType.sum variants) = 1 + sizeOf variants := by simp
        have hdet : ∀ r ∈ variants, ∀ u ∈ r, ∀ a b,
            MapEval M hooks inv u a → MapEval M hooks inv u b → a = b := by
          intro r hr u hu a b ha hb
          have h1 := List.sizeOf_lt_of_mem hu
          have h2 := List.sizeOf_lt_of_mem hr
          exact ih u (by omega) a b ha hb
        have houts := rowsEval_det_of variants hdet outs outs2 hrows hrows2
        subst houts
        rw [hsum] at hsum2
        injection hsum2 with he
        rw [he]
    | function ins outs ia oa fr hins houts hfn =>
      cases h2 with
      | function _ _ ia2 oa2 fr2 hins2 houts2 hfn2 =>
        have hsz : sizeOf (HType.function ins outs) = 1 + sizeOf ins + sizeOf outs := by simp
        have hdet1 : ∀ u ∈ ins, ∀ a b,
            MapEval M hooks inv u a → MapEval M hooks inv u b → a = b := by
          intro u hu a b ha hb
          have := List.sizeOf_lt_of_mem hu
          exact ih u (by omega) a b ha hb
        have hdet2 : ∀ u ∈ outs, ∀ a b,
            MapEval M hooks inv u a → MapEval M hooks inv u b → a = b := by
          intro u hu a b ha hb
          have := List.sizeOf_lt_of_mem hu
          exact ih u (by omega) a b ha hb
        have hia := rowEval_det_of ins hdet1 ia ia2 hins hins2
        have hoa := rowEval_det_of outs hdet2 oa oa2 houts houts2
        subst hia
        subst hoa
        rw [hfn] at hfn2
        injection hfn2 with he
        rw [he]
    | other m r hd =>
      cases h2 with
      | other _ _ hd2 =>
        rw [hd] at hd2
        injection hd2

mutual

/-- The executable `map_type` is sound for the evaluation relation. -/
theorem map_type_sound (M : TypeMapping Inv Out SumOut FuncOut E)
    (hooks : TypeHooks Inv Out E) (inv : Inv) :
    ∀ (t : HType) (r : Out), map_type M hooks inv t = .ok r → MapEval M hooks inv t r
  | .extension ext name, r => by
    intro h
    rw [map_type] at h
    cases hl : hooks.lookup (ext, name) with
    | some handler =>
      rw [hl] at h
      exact .ext_hook ext name handler r hl h
    | none =>
      rw [hl] at h
      exact .ext_default ext name r hl h

  | .sum variants, r => by
    intro h
    rw [map_type] at h
    cases hrs : map_rows M hooks inv variants with
    | ok outs =>
      rw [hrs] at h
      dsimp only at h
      cases hs : M.map_sum_type variants inv outs with
      | ok sr =>
        rw [hs] at h
        simp only [Except.map] at h
        injection h with h
        subst h
        exact .sum variants outs sr (map_rows_sound M hooks inv variants outs hrs) hs
      | error e =>
        rw [hs] at h
        simp only [Except.map] at h
        exact Except.noConfusion h
    | error e =>
      rw [hrs] at h
      simp at h
  | .function ins outs, r => by
    intro h
    rw [map_type] at h
    cases hi : map_row M hooks inv ins with
    | ok ia =>
      rw [hi] at h
      dsimp only at h
      cases ho : map_row M hooks inv outs with
      | ok oa =>
        rw [ho] at h
        dsimp only at h
        cases hf : M.map_function_type ins outs inv ia oa with
        | ok fr =>
          rw [hf] at h
          simp only [Except.map] at h
          injection h with h
          subst h
          exact .function ins outs ia oa fr (map_row_sound M hooks inv ins ia hi)
            (map_row_sound M hooks inv outs oa ho) hf
        | error e =>
          rw [hf] at h
          simp only [Except.map] at h
          exact Except.noConfusion h
      | error e =>
        rw [ho] at h
        simp at h
    | error e =>
      rw [hi] at h
      simp at h
  | .other m, r => by
    intro h
    rw [map_type] at h
    exact .other m r h

/-- `map_row` is sound for `RowEval`. -/
theorem map_row_sound (M : TypeMapping Inv Out SumOut FuncOut E)
    (hooks : TypeHooks Inv Out E) (inv : Inv) :
    ∀ (ts : List HType) (os : List Out),
      map_row M hooks inv ts = .ok os → RowEval M hooks inv ts os
  | [], os => by
    intro h
    rw [map_row] at h
    injection h with h
    subst h
    exact .nil
  | t :: ts, os => by
    intro h
    rw [map_row] at h
    cases hm : map_type M hooks inv t with
    | ok o =>
      rw [hm] at h
      dsimp only at h
      cases hr : map_row M hooks inv ts with
      | ok os2 =>
        rw [hr] at h
        injection h with h
        subst h
        exact .cons t ts o os2 (map_type_sound M hooks inv t o hm)
          (map_row_sound M hooks inv ts os2 hr)
      | error e =>
        rw [hr] at h
        simp at h
    | error e =>
      rw [hm] at h
      simp at h

/-- `map_rows` is sound for `RowsEval`. -/
theorem map_rows_sound (M : TypeMapping Inv Out SumOut FuncOut E)
    (hooks : TypeHooks Inv Out E) (inv : Inv) :
    ∀ (rows : List (List HType)) (os : List (List Out)),
      map_rows M hooks inv rows = .ok os → RowsEval M hooks inv rows os
  | [], os => by
    intro h
    rw [map_rows] at h
    injection h with h
    subst h
    exact .nil
  | r :: rows, os => by
    intro h
    rw [map_rows] at h
    cases hm : map_row M hooks inv r with
    | ok o =>
      rw [hm] at h
      dsimp only at h
      cases hr : map_rows M hooks inv rows with
      | ok os2 =>
        rw [hr] at h
        injection h with h
        subst h
        exact .cons r rows o os2 (map_row_sound M hooks inv r o hm)
          (map_rows_sound M hooks inv rows os2 hr)
      | error e =>
        rw [hr] at h
        simp at h
    | error e =>
      rw [hm] at h
      simp at h

end

/-- C9: type-mapping determinism.  Any two evaluations of the type mapper
on the same graph type, with the same registered hooks and auxiliary data,
yield the same representation; and every result of the executable
`map_type` is an evaluation.  Hence mapping the same type twice in one
compilation yields structurally identical representations. -/
theorem C9_type_mapping_determinism
    (M : TypeMapping Inv Out SumOut FuncOut E) (hooks : TypeHooks Inv Out E) (inv : Inv) :
    (∀ (t : HType) (r1 r2 : Out),
      MapEval M hooks inv t r1 → MapEval M hooks inv t r2 → r1 = r2) ∧
    (∀ (t : HType) (r : Out), map_type M hooks inv t = .ok r → MapEval M hooks inv t r) :=
  ⟨fun t r1 r2 h1 h2 => mapEval_det_aux (sizeOf t) t le_rfl r1 r2 h1 h2,
   fun t r h => map_type_sound M hooks inv t r h⟩

/-- C9 witness: a concrete mapping with no hooks, mapping a 1-variant sum
over a leaf handled by `default_out`; the function result `5` is an
evaluation, and two evaluations agree. -/
theorem C9_witness :
    MapEval
      (⟨fun _ _ _ => .ok 5, fun _ _ _ _ _ => .ok 9, id, id, fun _ _ => .ok 3⟩ :
        TypeMapping Unit Nat Nat Nat Unit)
      ([] : TypeHooks Unit Nat Unit) () (.sum [[.other 0]]) 5 :=
  (C9_type_mapping_determinism
      (⟨fun _ _ _ => .ok 5, fun _ _ _ _ _ => .ok 9, id, id, fun _ _ => .ok 3⟩ :
        TypeMapping Unit Nat Nat Nat Unit)
      ([] : TypeHooks Unit Nat Unit) ()).2
    (.sum [[.other 0]]) 5 rfl

end TypeMapClaims


section SwitchShapeLemmas

/-- Inversion for `positionedNewBlock`. -/
theorem positionedNewBlock_ok {α : Type} {c : Ctx} {f : Ctx → Nat → Except EmErr (α × Ctx)}
    {a : α} {c2 : Ctx} (h : positionedNewBlock c f = .ok (a, c2)) :
    ∃ c3, f { (newBasicBlock c).2 with curBlock := (newBasicBlock c).1 }
        (newBasicBlock c).1 = .ok (a, c3) ∧
      c2 = { c3 with curBlock := (newBasicBlock c).2.curBlock } := by
  rw [positionedNewBlock] at h
  split at h
  · rename_i a3 c3 heq
    simp only [Except.ok.injEq, Prod.mk.injEq] at h
    obtain ⟨h1, h2⟩ := h
    subst h1
    exact ⟨c3, heq, h2.symm⟩
  · exact Except.noConfusion h

/-- Inversion for `buildPositioned`. -/
theorem buildPositioned_ok {α : Type} {c : Ctx} {bb : Nat}
    {f : Ctx → Except EmErr (α × Ctx)} {a : α} {c2 : Ctx}
    (h : buildPositioned c bb f = .ok (a, c2)) :
    ∃ c3, f { c with curBlock := bb } = .ok (a, c3) ∧
      c2 = { c3 with curBlock := c.curBlock } := by
  rw [buildPositioned] at h
  split at h
  · rename_i a3 c3 heq
    simp only [Except.ok.injEq, Prod.mk.injEq] at h
    obtain ⟨h1, h2⟩ := h
    subst h1
    exact ⟨c3, heq, h2.symm⟩
  · exact Except.noConfusion h

/-- The case-block closure returns its `(i, rmb, bb)` triple. -/
theorem caseBlockBody_ok {cse : CaseNode} {exitRmb exitBlock caseRmb i : Nat}
    {c : Ctx} {bb : Nat} {a : Nat × Nat × Nat} {c2 : Ctx}
    (h : caseBlockBody cse exitRmb exitBlock caseRmb i c bb = .ok (a, c2)) :
    a = (i, caseRmb, bb) := by
  rw [caseBlockBody] at h
  split at h
  · split at h
    · simp only [Except.ok.injEq, Prod.mk.injEq] at h
      exact h.1.symm
    · exact Except.noConfusion h
  · exact Except.noConfusion h

/-- Inversion for one step of `emitCases`. -/
theorem emitCases_cons_ok {exitRmb exitBlock : Nat} {cse : CaseNode}
    {rest : List CaseNode} {i : Nat} {c : Ctx} {entries : List (Nat × Nat × Nat)}
    {c2 : Ctx}
    (h : emitCases exitRmb exitBlock (cse :: rest) i c = .ok (entries, c2)) :
    ∃ bb cmid entries2,
      entries = (i, (newRowMailBox c cse.inputRow).1, bb) :: entries2 ∧
      emitCases exitRmb exitBlock rest (i + 1) cmid = .ok (entries2, c2) := by
  rw [emitCases] at h
  split at h
  · rename_i entry cmid heq
    split at h
    · rename_i entries2 c3 heq2
      simp only [Except.ok.injEq, Prod.mk.injEq] at h
      obtain ⟨h1, h2⟩ := h
      subst h2
      obtain ⟨c4, hf, _⟩ := positionedNewBlock_ok heq
      have hent := caseBlockBody_ok hf
      subst hent
      exact ⟨_, cmid, entries2, h1.symm, heq2⟩
    · exact Except.noConfusion h
  · exact Except.noConfusion h

/-- `emitCases` numbers its entries consecutively from the start index. -/
theorem emitCases_tags {exitRmb exitBlock : Nat} :
    ∀ (cs : List CaseNode) (i : Nat) (c : Ctx) (entries : List (Nat × Nat × Nat))
      (c2 : Ctx),
      emitCases exitRmb exitBlock cs i c = .ok (entries, c2) →
      entries.map (fun e => e.1) = List.range' i cs.length := by
  intro cs
  induction cs with
  | nil =>
    intro i c entries c2 h
    rw [emitCases] at h
    simp only [Except.ok.injEq, Prod.mk.injEq] at h
    rw [← h.1]
    rfl
  | cons cse rest ih =>
    intro i c entries c2 h
    obtain ⟨bb, cmid, entries2, he, hrec⟩ := emitCases_cons_ok h
    subst he
    simp only [List.map_cons, List.length_cons, List.range'_succ]
    rw [ih (i + 1) cmid entries2 c2 hrec]

/-- The dispatch table built by `wireCases` pairs the case blocks with
consecutive tag constants. -/
theorem wireCases_shape {lst : LLVMSumType} {sumInput : EV} {passthrough : List EV} :
    ∀ (entries : List (Nat × Nat × Nat)) (start : Nat) (c : Ctx)
      (sw : List (EV × Nat)) (c2 : Ctx),
      entries.map (fun e => e.1) = List.range' start entries.length →
      wireCases lst sumInput passthrough entries c = .ok (sw, c2) →
      sw = tagCases (entries.map (fun e => e.2.2)) start := by
  intro entries
  induction entries with
  | nil =>
    intro start c sw c2 _ h
    rw [wireCases] at h
    simp only [Except.ok.injEq, Prod.mk.injEq] at h
    rw [← h.1]
    rfl
  | cons e rest ih =>
    intro start c sw c2 htags h
    obtain ⟨i, rmb, bb⟩ := e
    rw [wireCases] at h
    split at h
    · rename_i vs c3 hu
      split at h
      · rename_i c4 hw
        split at h
        · rename_i sw2 c5 hrec
          simp only [Except.ok.injEq, Prod.mk.injEq] at h
          obtain ⟨h1, h2⟩ := h
          simp only [List.map_cons, List.length_cons, List.range'_succ] at htags
          injection htags with hi hrest
          subst hi
          rw [← h1]
          simp only [List.map_cons, tagCases]
          rw [ih (i + 1) c4 sw2 c5 (by simpa using hrest) hrec]
        · exact Except.noConfusion h
      · exact Except.noConfusion h
    · exact Except.noConfusion h

/-- No tag constant of a dispatch table beginning at `start` matches a
value outside `[start, start + length)` (tags below `2^32` are stored
unchanged by `const_int`). -/
theorem tagCases_find_none (blocks : List Nat) :
    ∀ (start t : Nat), start + blocks.length ≤ 2 ^ 32 →
      (t < start ∨ start + blocks.length ≤ t) →
      (tagCases blocks start).find? (fun cse => evIsConst cse.1 32 t) = none := by
  induction blocks with
  | nil => intro start t _ _; rfl
  | cons b bs ih =>
    intro start t hub ht
    simp only [List.length_cons] at hub ht
    have hs32 : start < 2 ^ 32 := by omega
    have hmod : start % 2 ^ 32 = start := Nat.mod_eq_of_lt hs32
    have hne : t ≠ start := by omega
    rw [tagCases, List.find?]
    have : evIsConst (EV.constI 32 (start % 2 ^ 32)) 32 t = false := by
      simp [evIsConst, hmod]
      omega
    rw [this]
    exact ih (start + 1) t (by omega) (by omega)

/-- A switch whose cases are the tags `1, …, len` dispatches any other
value to its default block. -/
theorem tagCases_target_default (tagv : EV) (b0 : Nat) (brest : List Nat)
    (t : Nat) (hub : 1 + brest.length ≤ 2 ^ 32)
    (ht : t = 0 ∨ 1 + brest.length ≤ t) :
    SwitchRec.target ⟨tagv, b0, tagCases brest 1⟩ t = b0 := by
  rw [SwitchRec.target]
  rw [tagCases_find_none brest 1 t hub (by omega)]

end SwitchShapeLemmas


section DispatchShape

/-- Shape of the dispatch emitted by `ConditionalEmitter::emit`: case `i`'s
block carries tag `i`; the switch installs case 0's block as the default
target and tags `1, …, n-1` as the only explicit cases. -/
theorem conditionalEmit_switch_shape {node : ConditionalNode} {inputs : List EV}
    {outP : Nat} {c0 : Ctx} {cvrbs : List (Nat × Nat × Nat)} {c2 : Ctx}
    (h : conditionalEmit node inputs outP c0 = .ok (cvrbs, c2)) :
    cvrbs.map (fun e => e.1) = List.range node.cases.length ∧
    ∃ tagv b0 brest,
      cvrbs.map (fun e => e.2.2) = b0 :: brest ∧
      c2.switches.getLast? = some ⟨tagv, b0, tagCases brest 1⟩ := by
  rw [conditionalEmit] at h
  split at h
  · rename_i exitBlock c3 hexit
    split at h
    · rename_i cvrbs2 c4 hcases
      split at h
      · exact Except.noConfusion h
      · rename_i sumInput passthrough
        split at h
        · rename_i tagv c5 htag
          split at h
          · rename_i sw c6 hwire
            split at h
            · exact Except.noConfusion h
            · rename_i s0 srest
              simp only [Except.ok.injEq, Prod.mk.injEq] at h
              obtain ⟨hcv, hc2⟩ := h
              subst hcv
              have htags := emitCases_tags node.cases 0 c3 cvrbs2 c4 hcases
              have hlen : cvrbs2.length = node.cases.length := by
                have hl := congrArg List.length htags
                simpa using hl
              have hsw := wireCases_shape cvrbs2 0 c5 (s0 :: srest) c6
                (by rw [htags, hlen]) hwire
              refine ⟨by rw [htags, List.range_eq_range'], ?_⟩
              cases hb : cvrbs2.map (fun e => e.2.2) with
              | nil =>
                rw [hb, tagCases] at hsw
                exact List.noConfusion hsw
              | cons b0 brest =>
                rw [hb, tagCases] at hsw
                injection hsw with hs0 hsrest
                subst hs0
                subst hsrest
                refine ⟨tagv, b0, brest, rfl, ?_⟩
                rw [← hc2]
                simp [buildSwitch, List.getLast?_concat]
          · exact Except.noConfusion h
        · exact Except.noConfusion h
    · exact Except.noConfusion h
  · exact Except.noConfusion h

end DispatchShape


section CfgDispatchShape

/-- A successful `mapM` over `Except` preserves the length. -/
theorem exceptMapM_length {α β ε : Type} (f : α → Except ε β) :
    ∀ (l : List α) (l2 : List β), l.mapM f = .ok l2 → l2.length = l.length := by
  intro l
  induction l with
  | nil =>
    intro l2 h
    simp only [List.mapM_nil] at h
    injection h with h
    rw [← h]
    rfl
  | cons a l ih =>
    intro l2 h
    simp only [List.mapM_cons] at h
    cases hf : f a with
    | ok b =>
      rw [hf] at h
      cases hl : l.mapM f with
      | ok bs =>
        rw [hl] at h
        simp only [bind, Except.bind, pure, Except.pure, Except.ok.injEq] at h
        rw [← h]
        simp [ih bs hl]
      | error e =>
        rw [hl] at h
        simp only [bind, Except.bind] at h
        exact Except.noConfusion h
    | error e =>
      rw [hf] at h
      simp only [bind, Except.bind] at h
      exact Except.noConfusion h

/-- The dispatch table built by `wireSuccessors` pairs one fresh branch
block per successor with consecutive tag constants. -/
theorem wireSuccessors_shape {lst : LLVMSumType} {sel : EV} {others : List EV} :
    ∀ (sd : List (Nat × Nat)) (start : Nat) (c : Ctx) (sw : List (EV × Nat)) (c2 : Ctx),
      wireSuccessors lst sel others sd start c = .ok (sw, c2) →
      ∃ blocks : List Nat, blocks.length = sd.length ∧ sw = tagCases blocks start := by
  intro sd
  induction sd with
  | nil =>
    intro start c sw c2 h
    rw [wireSuccessors] at h
    simp only [Except.ok.injEq, Prod.mk.injEq] at h
    exact ⟨[], rfl, by rw [← h.1]; rfl⟩
  | cons p rest ih =>
    intro start c sw c2 h
    obtain ⟨tbb, trmb⟩ := p
    rw [wireSuccessors] at h
    split at h
    · rename_i bb c3 hpos
      split at h
      · rename_i sw2 c4 hrec
        simp only [Except.ok.injEq, Prod.mk.injEq] at h
        obtain ⟨h1, h2⟩ := h
        obtain ⟨blocks, hbl, hsw⟩ := ih (start + 1) c3 sw2 c4 hrec
        refine ⟨bb :: blocks, by simp [hbl], ?_⟩
        rw [← h1, hsw]
        rfl
      · exact Except.noConfusion h
    · exact Except.noConfusion h

/-- Shape of the dispatch emitted for a CFG `DataflowBlock`: the branch
block for successor tag 0 is the switch's default target, and only tags
`1, …, n-1` are explicit cases. -/
theorem dfbEmit_switch_shape {bbs : List (Nat × Nat)} {ci : Nat} {d : DfbNode}
    {c0 : Ctx} {tagBbs : List (EV × Nat)} {c2 : Ctx}
    (h : dfbEmit bbs ci d c0 = .ok (tagBbs, c2)) :
    ∃ tagv b0 brest,
      tagBbs = (EV.constI 32 0, b0) :: tagCases brest 1 ∧
      brest.length + 1 = d.successors.length ∧
      c2.switches.getLast? = some ⟨tagv, b0, tagCases brest 1⟩ := by
  rw [dfbEmit] at h
  split at h
  · exact Except.noConfusion h
  · rename_i bb inputsRmb
    split at h
    · exact Except.noConfusion h
    · rename_i succData hsd
      obtain ⟨c3, hf, hc2⟩ := buildPositioned_ok h
      rw [dfbInnerBody] at hf
      split at hf
      · rename_i ins c4 hread
        split at hf
        · rename_i c5 hbody
          split at hf
          · rename_i outs c6 houts
            split at hf
            · exact Except.noConfusion hf
            · rename_i sel others
              split at hf
              · rename_i sw c7 hwire
                split at hf
                · rename_i tagv c8 htag
                  split at hf
                  · exact Except.noConfusion hf
                  · rename_i t0 trest
                    simp only [Except.ok.injEq, Prod.mk.injEq] at hf
                    obtain ⟨h1, h2⟩ := hf
                    obtain ⟨blocks, hbl, hsw⟩ := wireSuccessors_shape succData 0 c6
                      (t0 :: trest) c7 hwire
                    cases blocks with
                    | nil =>
                      rw [tagCases] at hsw
                      exact List.noConfusion hsw
                    | cons b0 brest =>
                      rw [tagCases] at hsw
                      injection hsw with ht0 htrest
                      refine ⟨tagv, b0, brest, ?_, ?_, ?_⟩
                      · rw [← h1, ht0, htrest]
                        norm_num
                      · have hl := exceptMapM_length (getBlockData bbs) d.successors
                          succData hsd
                        simp only [List.length_cons] at hbl
                        omega
                      · rw [hc2, ← h2]
                        rw [ht0, htrest]
                        simp [buildSwitch, List.getLast?_concat]
                · exact Except.noConfusion hf
              · exact Except.noConfusion hf
          · exact Except.noConfusion hf
        · exact Except.noConfusion hf
      · exact Except.noConfusion hf

end CfgDispatchShape


section C10Claim

/-- C10: in the multi-way branch emitted for Conditional case dispatch and
for CFG successor dispatch alike, the block for tag 0 is installed as the
switch's default target and only the blocks for tags 1 and above are
explicit cases; consequently a runtime tag value with no explicit case
transfers control to the tag-0 branch rather than trapping. -/
theorem C10_switch_default_tag0 :
    (∀ (node : ConditionalNode) (inputs : List EV) (outP : Nat) (c0 : Ctx)
        (cvrbs : List (Nat × Nat × Nat)) (c2 : Ctx),
      conditionalEmit node inputs outP c0 = .ok (cvrbs, c2) →
      cvrbs.map (fun e => e.1) = List.range node.cases.length ∧
      ∃ tagv b0 brest, cvrbs.map (fun e => e.2.2) = b0 :: brest ∧
        brest.length + 1 = node.cases.length ∧
        c2.switches.getLast? = some ⟨tagv, b0, tagCases brest 1⟩ ∧
        (node.cases.length ≤ 2 ^ 32 →
          ∀ t, (t = 0 ∨ node.cases.length ≤ t) →
            SwitchRec.target ⟨tagv, b0, tagCases brest 1⟩ t = b0)) ∧
    (∀ (bbs : List (Nat × Nat)) (ci : Nat) (d : DfbNode) (c0 : Ctx)
        (tagBbs : List (EV × Nat)) (c2 : Ctx),
      dfbEmit bbs ci d c0 = .ok (tagBbs, c2) →
      ∃ tagv b0 brest, tagBbs = (EV.constI 32 0, b0) :: tagCases brest 1 ∧
        brest.length + 1 = d.successors.length ∧
        c2.switches.getLast? = some ⟨tagv, b0, tagCases brest 1⟩ ∧
        (d.successors.length ≤ 2 ^ 32 →
          ∀ t, (t = 0 ∨ d.successors.length ≤ t) →
            SwitchRec.target ⟨tagv, b0, tagCases brest 1⟩ t = b0)) := by
  constructor
  · intro node inputs outP c0 cvrbs c2 h
    obtain ⟨htags, tagv, b0, brest, hb, hlast⟩ := conditionalEmit_switch_shape h
    have hlen1 : cvrbs.length = node.cases.length := by
      have := congrArg List.length htags
      simpa using this
    have hlen2 : cvrbs.length = brest.length + 1 := by
      have := congrArg List.length hb
      simpa using this
    refine ⟨htags, tagv, b0, brest, hb, by omega, hlast, ?_⟩
    intro hub t ht
    exact tagCases_target_default tagv b0 brest t (by omega) (by omega)
  · intro bbs ci d c0 tagBbs c2 h
    obtain ⟨tagv, b0, brest, hshape, hlen, hlast⟩ := dfbEmit_switch_shape h
    refine ⟨tagv, b0, brest, hshape, hlen, hlast, ?_⟩
    intro hub t ht
    exact tagCases_target_default tagv b0 brest t (by omega) (by omega)

/-- C10 witness: a concrete 2-case Conditional and a concrete
single-successor DataflowBlock; in both emitted switches the tag-0 block is
the default target. -/
theorem C10_witness :
    (∃ cvrbs c2,
      conditionalEmit ⟨⟨[[], [], []]⟩, [], [⟨[], forwardBody⟩, ⟨[], forwardBody⟩]⟩
          [.ssa (.structT (LLVMSumType.try_new ⟨[[], [], []]⟩).fieldTypes) 0] 0
          ⟨0, 1, 1, 0, [(0, [])], [], [], []⟩ = .ok (cvrbs, c2) ∧
      cvrbs.map (fun e => e.1) = List.range 2 ∧
      ∃ tagv b0 brest, cvrbs.map (fun e => e.2.2) = b0 :: brest ∧
        c2.switches.getLast? = some ⟨tagv, b0, tagCases brest 1⟩) ∧
    (∃ tagBbs c2,
      dfbEmit [(0, 5), (1, 6)] 0 ⟨10, 11, [], [[]], [], [1], fun _ _ c => .ok c⟩
          ⟨3, 7, 0, 0, [(5, []), (6, [])], [], [], []⟩ = .ok (tagBbs, c2) ∧
      ∃ tagv b0 brest, tagBbs = (EV.constI 32 0, b0) :: tagCases brest 1 ∧
        c2.switches.getLast? = some ⟨tagv, b0, tagCases brest 1⟩) := by
  constructor
  · obtain ⟨htags, tagv, b0, brest, hb, hblen, hlast, hdef⟩ :=
      C10_switch_default_tag0.1
        ⟨⟨[[], [], []]⟩, [], [⟨[], forwardBody⟩, ⟨[], forwardBody⟩]⟩
        [.ssa (.structT (LLVMSumType.try_new ⟨[[], [], []]⟩).fieldTypes) 0] 0
        ⟨0, 1, 1, 0, [(0, [])], [], [], []⟩ _ _ rfl
    exact ⟨_, _, rfl, htags, tagv, b0, brest, hb, hlast⟩
  · obtain ⟨tagv, b0, brest, hshape, hlen, hlast, hdef⟩ :=
      C10_switch_default_tag0.2 [(0, 5), (1, 6)] 0
        ⟨10, 11, [], [[]], [], [1], fun _ _ c => .ok c⟩
        ⟨3, 7, 0, 0, [(5, []), (6, [])], [], [], []⟩ _ _ rfl
    exact ⟨_, _, rfl, tagv, b0, brest, hshape, hlast⟩

end C10Claim


section MailboxLemmas

/-- A successful association-list lookup exhibits a member. -/
theorem lookup_some_mem {β : Type} :
    ∀ (l : List (Nat × β)) (k : Nat) (v : β), l.lookup k = some v → (k, v) ∈ l := by
  intro l
  induction l with
  | nil => intro k v h; cases h
  | cons p l ih =>
    intro k v h
    rw [List.lookup] at h
    split at h
    · rename_i hbeq
      injection h with h
      subst h
      have : k = p.1 := by simpa using hbeq
      subst this
      exact List.mem_cons_self _ _
    · exact List.mem_cons_of_mem _ (ih k v h)

theorem mbPreserved_refl (c : Ctx) : MbPreserved c c :=
  ⟨fun _ _ h => h, le_refl _, fun h => h⟩

theorem mbPreserved_trans {a b c : Ctx} (h1 : MbPreserved a b) (h2 : MbPreserved b c) :
    MbPreserved a c :=
  ⟨fun k row h => h2.1 k row (h1.1 k row h), le_trans h1.2.1 h2.2.1,
   fun h => h2.2.2 (h1.2.2 h)⟩

/-- A context with only non-mailbox fields changed preserves the table. -/
theorem mbPreserved_of_fields {c c2 : Ctx} (hrow : c2.mailboxRow = c.mailboxRow)
    (hnext : c2.nextMailbox = c.nextMailbox) : MbPreserved c c2 := by
  refine ⟨fun k row h => by rw [hrow]; exact h, le_of_eq hnext.symm, fun h => ?_⟩
  intro p hp
  rw [hrow] at hp
  rw [hnext]
  exact h p hp

theorem newRowMailBox_lookup_self (c : Ctx) (row : List LLVMType) :
    (newRowMailBox c row).2.mailboxRow.lookup (newRowMailBox c row).1 = some row := by
  simp [newRowMailBox, List.lookup]

theorem newRowMailBox_preserves (c : Ctx) (row : List LLVMType) (hwf : MailboxWF c) :
    MbPreserved c (newRowMailBox c row).2 := by
  refine ⟨?_, by simp [newRowMailBox], ?_⟩
  · intro k r0 hk
    have hmem := lookup_some_mem c.mailboxRow k r0 hk
    have hlt := hwf (k, r0) hmem
    have hne : (k == c.nextMailbox) = false := by
      simp only [beq_eq_false_iff_ne, ne_eq]
      omega
    simp [newRowMailBox, List.lookup, hne, hk]
  · intro _ p hp
    simp only [newRowMailBox, List.mem_cons] at hp
    rcases hp with hp | hp
    · simp [newRowMailBox, hp]
    · have := hwf p hp
      simp only [newRowMailBox]
      omega

theorem newRowMailBox_wf (c : Ctx) (row : List LLVMType) (hwf : MailboxWF c) :
    MailboxWF (newRowMailBox c row).2 :=
  (newRowMailBox_preserves c row hwf).2.2 hwf

theorem newBasicBlock_preserves (c : Ctx) : MbPreserved c (newBasicBlock c).2 :=
  mbPreserved_of_fields rfl rfl

/-- Reading a registered mailbox succeeds with one value per row field and
does not touch the mailbox table. -/
theorem rmbRead_ok {c : Ctx} {mb : Nat} {row : List LLVMType}
    (h : c.mailboxRow.lookup mb = some row) :
    ∃ vs c2, rmbRead c mb = .ok (vs, c2) ∧ vs.length = row.length ∧
      c2.mailboxRow = c.mailboxRow ∧ c2.nextMailbox = c.nextMailbox := by
  refine ⟨(freshSsas c row).1, (freshSsas c row).2, ?_, ?_, rfl, rfl⟩
  · rw [rmbRead, h]
  · simp [freshSsas]

/-- Writing a registered mailbox with a row of the right length succeeds
and does not touch the mailbox table. -/
theorem rmbWrite_ok {c : Ctx} (mb : Nat) (row : List LLVMType) (vs : List EV)
    (h : c.mailboxRow.lookup mb = some row) (hlen : vs.length = row.length) :
    rmbWrite c mb vs = .ok { c with events := c.events ++ [.mailboxWrite mb] } := by
  rw [rmbWrite, h]
  simp [hlen]

end MailboxLemmas


section EmitCasesSuccess

/-- With well-behaved bodies, the per-case loop always succeeds, preserves
the mailbox table, and leaves each case's fresh input mailbox registered
with that case's row. -/
theorem emitCases_ok_of_good {exitRmb exitBlock : Nat} :
    ∀ (cs : List CaseNode) (i : Nat) (c : Ctx),
      (∀ cse ∈ cs, GoodBody cse.body) → MailboxWF c →
      ∃ entries c2, emitCases exitRmb exitBlock cs i c = .ok (entries, c2) ∧
        MbPreserved c c2 ∧
        List.Forall₂ (fun (e : Nat × Nat × Nat) (cse : CaseNode) =>
          c2.mailboxRow.lookup e.2.1 = some cse.inputRow) entries cs := by
  intro cs
  induction cs with
  | nil =>
    intro i c _ hwf
    exact ⟨[], c, rfl, mbPreserved_refl c, .nil⟩
  | cons cse rest ih =>
    intro i c hgood hwf
    -- the case's fresh mailbox
    have hp1 : MbPreserved c (newRowMailBox c cse.inputRow).2 :=
      newRowMailBox_preserves c cse.inputRow hwf
    have hself := newRowMailBox_lookup_self c cse.inputRow
    -- inside the positioned block: read, body, branch
    set cIn : Ctx := { (newBasicBlock (newRowMailBox c cse.inputRow).2).2 with
      curBlock := (newBasicBlock (newRowMailBox c cse.inputRow).2).1 } with hcIn
    have hlookIn : cIn.mailboxRow.lookup (newRowMailBox c cse.inputRow).1 =
        some cse.inputRow := hself
    obtain ⟨ins, cR, hread, hinslen, hrowR, hnextR⟩ := rmbRead_ok hlookIn
    obtain ⟨cB, hbody, hbpres, hbnext, hbwf⟩ :=
      hgood cse (List.mem_cons_self cse rest) ins exitRmb cR
    have hbranch := uncondBranch cB exitBlock
    -- the positioned block returns the entry
    have hposblock : positionedNewBlock (newRowMailBox c cse.inputRow).2
        (caseBlockBody cse exitRmb exitBlock (newRowMailBox c cse.inputRow).1 i) =
        .ok ((i, (newRowMailBox c cse.inputRow).1,
            (newBasicBlock (newRowMailBox c cse.inputRow).2).1),
          { uncondBranch cB exitBlock with
            curBlock := (newBasicBlock (newRowMailBox c cse.inputRow).2).2.curBlock }) := by
      rw [positionedNewBlock, caseBlockBody, ← hcIn, hread]
      dsimp only
      rw [hbody]
    -- mailbox facts carried to the end of this case
    have hpresIn : MbPreserved c cIn := by
      refine mbPreserved_trans hp1 (mbPreserved_of_fields ?_ ?_) <;> rfl
    have hpresR : MbPreserved cIn cR := mbPreserved_of_fields hrowR hnextR
    have hpresB : MbPreserved cR cB := ⟨hbpres, hbnext, hbwf⟩
    have hpresBr : MbPreserved cB (uncondBranch cB exitBlock) :=
      mbPreserved_of_fields rfl rfl
    have hpresAll : MbPreserved c { uncondBranch cB exitBlock with
        curBlock := (newBasicBlock (newRowMailBox c cse.inputRow).2).2.curBlock } := by
      refine mbPreserved_trans hpresIn (mbPreserved_trans hpresR
        (mbPreserved_trans hpresB (mbPreserved_trans hpresBr
          (mbPreserved_of_fields rfl rfl))))
    have hwfEnd : MailboxWF { uncondBranch cB exitBlock with
        curBlock := (newBasicBlock (newRowMailBox c cse.inputRow).2).2.curBlock } :=
      hpresAll.2.2 hwf
    -- recurse on the remaining cases
    obtain ⟨entries, c2, hrec, hrecpres, hrecfa⟩ := ih (i + 1)
      { uncondBranch cB exitBlock with
        curBlock := (newBasicBlock (newRowMailBox c cse.inputRow).2).2.curBlock }
      (fun q hq => hgood q (List.mem_cons_of_mem cse hq)) hwfEnd
    refine ⟨(i, (newRowMailBox c cse.inputRow).1,
        (newBasicBlock (newRowMailBox c cse.inputRow).2).1) :: entries, c2, ?_, ?_, ?_⟩
    · rw [emitCases, hposblock]
      dsimp only
      rw [hrec]
    · exact mbPreserved_trans hpresAll hrecpres
    · refine List.Forall₂.cons ?_ hrecfa
      -- the case mailbox stays registered to the end
      refine hrecpres.1 _ _ ?_
      have hstep : MbPreserved cIn { uncondBranch cB exitBlock with
          curBlock := (newBasicBlock (newRowMailBox c cse.inputRow).2).2.curBlock } :=
        mbPreserved_trans hpresR (mbPreserved_trans hpresB
          (mbPreserved_trans hpresBr (mbPreserved_of_fields rfl rfl)))
      exact hstep.1 _ _ hlookIn

end EmitCasesSuccess


section WireCasesSuccess

/-- The number of fresh values equals the number of types. -/
theorem freshSsas_length (c : Ctx) (ts : List LLVMType) :
    (freshSsas c ts).1.length = ts.length := by
  simp [freshSsas]

/-- Emission-level untag succeeds on a value of the sum's struct type for
any valid tag, yielding one value per variant field and leaving the
mailbox table untouched. -/
theorem buildUntagE_ok (st : HugrSumType) (c : Ctx) (tag : Nat) (v : EV)
    (row : List LLVMType) (hrow : st.variants[tag]? = some row)
    (hty : v.ty = .structT (LLVMSumType.try_new st).fieldTypes) :
    ∃ vs c2, buildUntagE c (LLVMSumType.try_new st) tag v = .ok (vs, c2) ∧
      vs.length = row.length ∧
      c2.mailboxRow = c.mailboxRow ∧ c2.nextMailbox = c.nextMailbox ∧
      c2.events = c.events ∧ c2.switches = c.switches := by
  have hft := fieldTypes_at_variant_index st tag row hrow
  refine ⟨(freshSsas c row).1, (freshSsas c row).2, ?_, freshSsas_length c row,
    rfl, rfl, rfl, rfl⟩
  rw [buildUntagE, hty]
  dsimp only
  rw [hft]

/-- Emission-level `build_get_tag` succeeds on a value of the sum's struct
type, leaving the mailbox table untouched. -/
theorem buildGetTagE_ok (st : HugrSumType) (c : Ctx) (v : EV)
    (hty : v.ty = .structT (LLVMSumType.try_new st).fieldTypes) :
    ∃ tagv c2, buildGetTagE c (LLVMSumType.try_new st) v = .ok (tagv, c2) ∧
      c2.mailboxRow = c.mailboxRow ∧ c2.nextMailbox = c.nextMailbox ∧
      c2.events = c.events ∧ c2.switches = c.switches := by
  by_cases htag : (LLVMSumType.try_new st).has_tag_field
  · have h0 : (LLVMSumType.try_new st).fieldTypes[0]? = some (.intT 32) := by
      have : sum_type_has_tag_field st = true := htag
      simp [LLVMSumType.try_new, this]
    refine ⟨.ssa (.intT 32) c.nextSsa, { c with nextSsa := c.nextSsa + 1 }, ?_,
      rfl, rfl, rfl, rfl⟩
    rw [buildGetTagE, hty]
    dsimp only
    rw [h0]
    simp [htag]
  · refine ⟨.constI 32 0, c, ?_, rfl, rfl, rfl, rfl⟩
    rw [buildGetTagE, hty]
    dsimp only
    simp [htag]

/-- The wiring loop succeeds when every entry's tag is a valid variant
index and its mailbox is registered with the matching row; it leaves the
mailbox table untouched. -/
theorem wireCases_ok_of (st : HugrSumType) (sumInput : EV) (passthrough : List EV)
    (hty : sumInput.ty = .structT (LLVMSumType.try_new st).fieldTypes) :
    ∀ (entries : List (Nat × Nat × Nat)) (cs : List CaseNode) (c : Ctx),
      List.Forall₂ (fun (e : Nat × Nat × Nat) (cse : CaseNode) =>
        c.mailboxRow.lookup e.2.1 = some cse.inputRow ∧
        ∃ row, st.variants[e.1]? = some row ∧
          cse.inputRow.length = row.length + passthrough.length) entries cs →
      ∃ sw c2, wireCases (LLVMSumType.try_new st) sumInput passthrough entries c =
          .ok (sw, c2) ∧ c2.mailboxRow = c.mailboxRow ∧
        c2.nextMailbox = c.nextMailbox ∧ sw.length = entries.length := by
  intro entries
  induction entries with
  | nil =>
    intro cs c hfa
    exact ⟨[], c, rfl, rfl, rfl, rfl⟩
  | cons e rest ih =>
    intro cs c hfa
    cases hfa with
    | cons hP hrest =>
      rename_i cse cs2
      obtain ⟨i, rmb, bb⟩ := e
      obtain ⟨hlook, row, hrow, hlen⟩ := hP
      obtain ⟨vs, cU, hU, hvslen, hUrow, hUnext, _, _⟩ :=
        buildUntagE_ok st c i sumInput row hrow hty
      have hlookU : cU.mailboxRow.lookup rmb = some cse.inputRow := by
        rw [hUrow]
        exact hlook
      have hW := rmbWrite_ok rmb cse.inputRow (vs ++ passthrough) hlookU
        (by simp only [List.length_append]; omega)
      have hrest2 : List.Forall₂ (fun (e : Nat × Nat × Nat) (cse : CaseNode) =>
          ({ cU with events := cU.events ++ [Event.mailboxWrite rmb] }).mailboxRow.lookup e.2.1
              = some cse.inputRow ∧
          ∃ row, st.variants[e.1]? = some row ∧
            cse.inputRow.length = row.length + passthrough.length) rest cs2 := by
        refine List.Forall₂.imp ?_ hrest
        intro a b hab
        refine ⟨?_, hab.2⟩
        show cU.mailboxRow.lookup a.2.1 = some b.inputRow
        rw [hUrow]
        exact hab.1
      obtain ⟨sw, c2, hrec, h2row, h2next, h2len⟩ := ih cs2
        { cU with events := cU.events ++ [Event.mailboxWrite rmb] } hrest2
      refine ⟨(EV.constI 32 (i % 2 ^ 32), bb) :: sw, c2, ?_, ?_, ?_, by simp [h2len]⟩
      · rw [wireCases, hU]
        dsimp only
        rw [hW]
        dsimp only
        rw [hrec]
      · rw [h2row]
        exact hUrow
      · rw [h2next]
        exact hUnext

end WireCasesSuccess


section C1Claim

/-- Positional enrichment: combine the per-position mailbox registrations
with the per-position variant facts, using that the entry tags are exactly
the positions. -/
theorem entries_variant_facts (st : HugrSumType) (passlen : Nat) (c2 : Ctx) :
    ∀ (entries : List (Nat × Nat × Nat)) (cs : List CaseNode) (start : Nat),
      List.Forall₂ (fun (e : Nat × Nat × Nat) (cse : CaseNode) =>
        c2.mailboxRow.lookup e.2.1 = some cse.inputRow) entries cs →
      entries.map (fun e => e.1) = List.range' start cs.length →
      (∀ (k : Nat) (cse : CaseNode), cs[k]? = some cse →
        ∃ row, st.variants[start + k]? = some row ∧
          cse.inputRow.length = row.length + passlen) →
      List.Forall₂ (fun (e : Nat × Nat × Nat) (cse : CaseNode) =>
        c2.mailboxRow.lookup e.2.1 = some cse.inputRow ∧
        ∃ row, st.variants[e.1]? = some row ∧
          cse.inputRow.length = row.length + passlen) entries cs := by
  intro entries
  induction entries with
  | nil =>
    intro cs start hfa _ _
    cases hfa
    exact .nil
  | cons e rest ih =>
    intro cs start hfa hm hk
    cases hfa with
    | cons hP hrest =>
      rename_i cse cs2
      simp only [List.map_cons, List.length_cons, List.range'_succ] at hm
      injection hm with h1 h2
      refine List.Forall₂.cons ⟨hP, ?_⟩ ?_
      · rw [h1]
        have := hk 0 cse (by simp)
        simpa using this
      · refine ih cs2 (start + 1) hrest h2 ?_
        intro k q hq
        have := hk (k + 1) q (by simpa using hq)
        have harith : start + (k + 1) = start + 1 + k := by omega
        rw [harith] at this
        exact this

/-- C1 (amended): the Conditional emitter performs no case-count versus
variant-count check.  Whenever every declared case's index is a valid
variant of the selector (in particular whenever the number of cases is at
most the number of variants — also when it is strictly smaller), the case
bodies are well-behaved, and the mailboxes have the declared arities,
emission succeeds: no `ShapeError` (nor any other error) is raised, and
the dispatch covers only the declared cases. -/
theorem C1_conditional_no_arity_check (node : ConditionalNode) (sumInput : EV)
    (passthrough : List EV) (outP : Nat) (c0 : Ctx) (prow : List LLVMType)
    (hne : node.cases ≠ [])
    (harity : ∀ (k : Nat) (cse : CaseNode), node.cases[k]? = some cse →
      ∃ row, node.selector.variants[k]? = some row ∧
        cse.inputRow.length = row.length + passthrough.length)
    (hty : sumInput.ty = .structT (LLVMSumType.try_new node.selector).fieldTypes)
    (houtP : c0.mailboxRow.lookup outP = some prow)
    (hplen : prow.length = node.outputRow.length)
    (hwf : MailboxWF c0)
    (hgood : ∀ cse ∈ node.cases, GoodBody cse.body) :
    ∃ cvrbs c2, conditionalEmit node (sumInput :: passthrough) outP c0 =
      .ok (cvrbs, c2) ∧ cvrbs.length = node.cases.length := by
  -- the exit mailbox
  have hpres1 : MbPreserved c0 (newRowMailBox c0 node.outputRow).2 :=
    newRowMailBox_preserves c0 node.outputRow hwf
  have hself := newRowMailBox_lookup_self c0 node.outputRow
  -- the exit block: read the exit mailbox, finish the output promise
  set cIn : Ctx := { (newBasicBlock (newRowMailBox c0 node.outputRow).2).2 with
    curBlock := (newBasicBlock (newRowMailBox c0 node.outputRow).2).1 } with hcIn
  have hpresIn : MbPreserved c0 cIn :=
    mbPreserved_trans hpres1 (mbPreserved_of_fields rfl rfl)
  have hlookExit : cIn.mailboxRow.lookup (newRowMailBox c0 node.outputRow).1 =
      some node.outputRow := hself
  obtain ⟨vs, cR, hread, hvslen, hrowR, hnextR⟩ := rmbRead_ok hlookExit
  have hlookOut : cR.mailboxRow.lookup outP = some prow := by
    rw [hrowR]
    exact hpresIn.1 outP prow houtP
  have hW := rmbWrite_ok outP prow vs hlookOut (by omega)
  have hexit : positionedNewBlock (newRowMailBox c0 node.outputRow).2
      (condExitBody (newRowMailBox c0 node.outputRow).1 outP) =
      .ok ((newBasicBlock (newRowMailBox c0 node.outputRow).2).1,
        { cR with
          curBlock := (newBasicBlock (newRowMailBox c0 node.outputRow).2).2.curBlock
          events := cR.events ++ [Event.mailboxWrite outP] }) := by
    rw [positionedNewBlock, condExitBody, ← hcIn, hread]
    dsimp only
    rw [hW]
  have hpresE : MbPreserved c0
      { cR with
        curBlock := (newBasicBlock (newRowMailBox c0 node.outputRow).2).2.curBlock
        events := cR.events ++ [Event.mailboxWrite outP] } :=
    mbPreserved_trans hpresIn (mbPreserved_trans (mbPreserved_of_fields hrowR hnextR)
      (mbPreserved_of_fields rfl rfl))
  have hwfE : MailboxWF
      { cR with
        curBlock := (newBasicBlock (newRowMailBox c0 node.outputRow).2).2.curBlock
        events := cR.events ++ [Event.mailboxWrite outP] } := hpresE.2.2 hwf
  -- the per-case loop
  obtain ⟨entries, c4, hcases, hpres4, hfa⟩ :=
    emitCases_ok_of_good node.cases 0
      { cR with
        curBlock := (newBasicBlock (newRowMailBox c0 node.outputRow).2).2.curBlock
        events := cR.events ++ [Event.mailboxWrite outP] } hgood hwfE
  have htags := emitCases_tags node.cases 0
    { cR with
      curBlock := (newBasicBlock (newRowMailBox c0 node.outputRow).2).2.curBlock
      events := cR.events ++ [Event.mailboxWrite outP] } entries c4 hcases
  -- the dispatch
  obtain ⟨tagv, c5, htag, h5row, h5next, _, _⟩ := buildGetTagE_ok node.selector c4 sumInput hty
  have hfa5 : List.Forall₂ (fun (e : Nat × Nat × Nat) (cse : CaseNode) =>
      c5.mailboxRow.lookup e.2.1 = some cse.inputRow ∧
      ∃ row, node.selector.variants[e.1]? = some row ∧
        cse.inputRow.length = row.length + passthrough.length) entries node.cases := by
    have henr := entries_variant_facts node.selector passthrough.length c4 entries
      node.cases 0 hfa htags (by
        intro k q hq
        have := harity k q hq
        simpa using this)
    refine List.Forall₂.imp ?_ henr
    intro a b hab
    refine ⟨?_, hab.2⟩
    rw [h5row]
    exact hab.1
  obtain ⟨sw, c6, hwire, h6row, h6next, hswlen⟩ :=
    wireCases_ok_of node.selector sumInput passthrough hty entries node.cases c5 hfa5
  have hentlen : entries.length = node.cases.length := List.Forall₂.length_eq hfa
  have hswne : sw ≠ [] := by
    intro hcontra
    rw [hcontra] at hswlen
    simp at hswlen
    have : node.cases.length ≠ 0 := by
      intro hz
      exact hne (List.length_eq_zero.mp hz)
    omega
  obtain ⟨s0, srest, hsw⟩ : ∃ s0 srest, sw = s0 :: srest := by
    cases sw with
    | nil => exact absurd rfl hswne
    | cons a l => exact ⟨a, l, rfl⟩
  refine ⟨entries, { buildSwitch c6 tagv s0.2 srest with
    curBlock := (newBasicBlock (newRowMailBox c0 node.outputRow).2).1 }, ?_, hentlen⟩
  rw [conditionalEmit, hexit]
  dsimp only
  rw [hcases]
  dsimp only
  rw [htag]
  dsimp only
  rw [hwire]
  dsimp only
  rw [hsw]

end C1Claim


section C1Concrete

/-- C1 counterexample: a Conditional with 2 declared cases over a selector
sum type with 3 variants is emitted successfully — no ShapeError (nor any
other error) is raised — contradicting the claim that such a mismatch must
fail with a ShapeError. -/
theorem C1_counterexample :
    (conditionalEmit ⟨⟨[[], [], []]⟩, [], [⟨[], forwardBody⟩, ⟨[], forwardBody⟩]⟩
        [.ssa (.structT (LLVMSumType.try_new ⟨[[], [], []]⟩).fieldTypes) 0] 0
        ⟨0, 1, 1, 0, [(0, [])], [], [], []⟩).isOk = true := rfl

/-- C1 witness: the amended theorem applied at the concrete 2-case /
3-variant instance. -/
theorem C1_witness :
    ∃ cvrbs c2,
      conditionalEmit ⟨⟨[[], [], []]⟩, [], [⟨[], noOpBody⟩, ⟨[], noOpBody⟩]⟩
          ((EV.ssa (.structT (LLVMSumType.try_new ⟨[[], [], []]⟩).fieldTypes) 0) :: []) 0
          ⟨0, 1, 1, 0, [(0, [])], [], [], []⟩ = .ok (cvrbs, c2) ∧
      cvrbs.length = (⟨⟨[[], [], []]⟩, [], [⟨[], noOpBody⟩, ⟨[], noOpBody⟩]⟩ :
        ConditionalNode).cases.length :=
  C1_conditional_no_arity_check
    ⟨⟨[[], [], []]⟩, [], [⟨[], noOpBody⟩, ⟨[], noOpBody⟩]⟩
    (EV.ssa (.structT (LLVMSumType.try_new ⟨[[], [], []]⟩).fieldTypes) 0) [] 0
    ⟨0, 1, 1, 0, [(0, [])], [], [], []⟩ []
    (by simp)
    (by
      intro k cse h
      match k, h with
      | 0, h =>
        refine ⟨[], rfl, ?_⟩
        cases Option.some.inj h
        rfl
      | 1, h =>
        refine ⟨[], rfl, ?_⟩
        cases Option.some.inj h
        rfl
      | n + 2, h => exact absurd h (by simp))
    rfl
    rfl
    rfl
    (by
      intro p hp
      simp only [List.mem_singleton] at hp
      subst hp
      simp)
    (by
      intro cse hcse
      have hb : cse.body = noOpBody := by
        simp only [List.mem_cons, List.not_mem_nil, or_false] at hcse
        rcases hcse with h | h <;> rw [h]
      rw [hb]
      intro ins mb c
      exact ⟨c, rfl, fun k row h => h, le_refl _, fun h => h⟩)

end C1Concrete


section C2Claim

/-- C2 counterexample: lowering a Call whose called function type has one
type parameter does not return an `UnsupportedConstruct`-style error to
the caller — emission hits `todo!("Call of generic function")` and the
process aborts. -/
theorem C2_counterexample :
    emit_call ⟨[1], .decl 0, []⟩ 0 ⟨0, 1, 0, 0, [(0, [])], [], [], []⟩ =
      .panicked "not yet implemented: Call of generic function" := rfl

/-- C2 (amended): for every Call node whose called function type has a
non-empty list of type parameters, `emit_call` panics with the
`todo!("Call of generic function")` message before doing anything else —
the process aborts; no `UnsupportedConstruct` error is returned to the
caller and no output is produced. -/
theorem C2_generic_call_panics (node : CallNode) (outP : Nat) (c : Ctx)
    (h : node.typeParams ≠ []) :
    emit_call node outP c =
      .panicked "not yet implemented: Call of generic function" := by
  rw [emit_call, if_pos h]

/-- C2 witness: the amended theorem at a concrete generic call node. -/
theorem C2_witness :
    emit_call ⟨[1], .defn 7, [.intT 32]⟩ 0 ⟨0, 1, 0, 0, [(0, [])], [], [], []⟩ =
      .panicked "not yet implemented: Call of generic function" :=
  C2_generic_call_panics ⟨[1], .defn 7, [.intT 32]⟩ 0
    ⟨0, 1, 0, 0, [(0, [])], [], [], []⟩ (by simp)

end C2Claim


section EventAppendLemmas

theorem evAppend_refl (c : Ctx) : EvAppend c c := ⟨[], by simp⟩

theorem evAppend_trans {a b c : Ctx} (h1 : EvAppend a b) (h2 : EvAppend b c) :
    EvAppend a c := by
  obtain ⟨t1, h1⟩ := h1
  obtain ⟨t2, h2⟩ := h2
  exact ⟨t1 ++ t2, by rw [h2, h1, List.append_assoc]⟩

theorem evAppend_of_eq {a b : Ctx} (h : b.events = a.events) : EvAppend a b :=
  ⟨[], by rw [h, List.append_nil]⟩

theorem mem_of_evAppend {a b : Ctx} {e : Event} (h : EvAppend a b)
    (he : e ∈ a.events) : e ∈ b.events := by
  obtain ⟨t, ht⟩ := h
  rw [ht]
  exact List.mem_append_left t he

/-- Caches only ever grow monotonically with their allocation events. -/
theorem cacheWF_of_evAppend {a b : Ctx} (h : EvAppend a b)
    (hcache : b.nodeMailbox = a.nodeMailbox) (hwf : CacheWF a) : CacheWF b := by
  intro n mb hl
  rw [hcache] at hl
  exact mem_of_evAppend h (hwf n mb hl)

theorem newBasicBlock_append (c : Ctx) : EvAppend c (newBasicBlock c).2 :=
  ⟨[.allocBlock c.nextBlock], rfl⟩

theorem newBasicBlock_event (c : Ctx) :
    Event.allocBlock (newBasicBlock c).1 ∈ (newBasicBlock c).2.events := by
  simp [newBasicBlock]

theorem newBasicBlock_cacheWF (c : Ctx) (hwf : CacheWF c) :
    CacheWF (newBasicBlock c).2 :=
  cacheWF_of_evAppend (newBasicBlock_append c) rfl hwf

theorem newRowMailBox_append (c : Ctx) (row : List LLVMType) :
    EvAppend c (newRowMailBox c row).2 :=
  ⟨[.allocMailbox c.nextMailbox], rfl⟩

theorem newRowMailBox_event (c : Ctx) (row : List LLVMType) :
    Event.allocMailbox (newRowMailBox c row).1 ∈ (newRowMailBox c row).2.events := by
  simp [newRowMailBox]

theorem newRowMailBox_cacheWF (c : Ctx) (row : List LLVMType) (hwf : CacheWF c) :
    CacheWF (newRowMailBox c row).2 :=
  cacheWF_of_evAppend (newRowMailBox_append c row) rfl hwf

/-- `nodeRmb` preserves cache well-formedness, appends at most one event,
and its result mailbox has its allocation event in the log. -/
theorem nodeRmb_spec (c : Ctx) (n : Nat) (row : List LLVMType) (hwf : CacheWF c) :
    CacheWF (nodeRmb c n row).2 ∧ EvAppend c (nodeRmb c n row).2 ∧
    Event.allocMailbox (nodeRmb c n row).1 ∈ (nodeRmb c n row).2.events := by
  rw [nodeRmb]
  split
  · rename_i mb hl
    exact ⟨hwf, evAppend_refl c, hwf n mb hl⟩
  · rename_i hl
    dsimp only
    refine ⟨?_, ?_, ?_⟩
    · intro n2 mb2 hl2
      rw [List.lookup] at hl2
      split at hl2
      · rename_i hbeq
        injection hl2 with hl2
        subst hl2
        exact newRowMailBox_event c row
      · exact mem_of_evAppend (newRowMailBox_append c row) (hwf n2 mb2 hl2)
    · exact newRowMailBox_append c row
    · exact newRowMailBox_event c row

theorem rmbRead_append {c : Ctx} {mb : Nat} {vs : List EV} {c2 : Ctx}
    (h : rmbRead c mb = .ok (vs, c2)) : c2.events = c.events ∧
      c2.nodeMailbox = c.nodeMailbox := by
  rw [rmbRead] at h
  split at h
  · rename_i row hl
    simp only [Except.ok.injEq] at h
    have h2 := congrArg Prod.snd h
    simp only at h2
    rw [← h2]
    exact ⟨rfl, rfl⟩
  · exact Except.noConfusion h

theorem rmbWrite_append {c : Ctx} {mb : Nat} {vs : List EV} {c2 : Ctx}
    (h : rmbWrite c mb vs = .ok c2) : EvAppend c c2 ∧
      c2.nodeMailbox = c.nodeMailbox := by
  rw [rmbWrite] at h
  split at h
  · rename_i row hl
    split at h
    · injection h with h
      rw [← h]
      exact ⟨⟨[.mailboxWrite mb], rfl⟩, rfl⟩
    · exact Except.noConfusion h
  · exact Except.noConfusion h

theorem uncondBranch_append (c : Ctx) (bb : Nat) : EvAppend c (uncondBranch c bb) :=
  ⟨[.uncondBr bb], rfl⟩

theorem buildSwitch_append (c : Ctx) (scrut : EV) (dflt : Nat) (cs : List (EV × Nat)) :
    EvAppend c (buildSwitch c scrut dflt cs) :=
  ⟨[.switchTerm scrut dflt cs], rfl⟩

theorem buildUntagE_append {c : Ctx} {s : LLVMSumType} {tag : Nat} {v : EV}
    {vs : List EV} {c2 : Ctx} (h : buildUntagE c s tag v = .ok (vs, c2)) :
    c2.events = c.events ∧ c2.nodeMailbox = c.nodeMailbox := by
  rw [buildUntagE] at h
  split at h
  · split at h
    · simp only [Except.ok.injEq] at h
      have h2 := congrArg Prod.snd h
      simp only at h2
      rw [← h2]
      exact ⟨rfl, rfl⟩
    · exact Except.noConfusion h
    · exact Except.noConfusion h
  · exact Except.noConfusion h

theorem buildGetTagE_append {c : Ctx} {s : LLVMSumType} {v : EV}
    {tagv : EV} {c2 : Ctx} (h : buildGetTagE c s v = .ok (tagv, c2)) :
    c2.events = c.events ∧ c2.nodeMailbox = c.nodeMailbox := by
  rw [buildGetTagE] at h
  split at h
  · split at h
    · split at h
      · simp only [Except.ok.injEq, Prod.mk.injEq] at h
        rw [← h.2]
        exact ⟨rfl, rfl⟩
      · exact Except.noConfusion h
      · exact Except.noConfusion h
    · simp only [Except.ok.injEq, Prod.mk.injEq] at h
      rw [← h.2]
      exact ⟨rfl, rfl⟩
  · exact Except.noConfusion h

end EventAppendLemmas


section CfgAppendLemmas

theorem nodeRmb_append (c : Ctx) (n : Nat) (row : List LLVMType) :
    EvAppend c (nodeRmb c n row).2 := by
  rw [nodeRmb]
  split
  · exact evAppend_refl c
  · dsimp only
    exact newRowMailBox_append c row

theorem positionedNewBlock_append {α : Type} {c : Ctx}
    {f : Ctx → Nat → Except EmErr (α × Ctx)} {a : α} {c2 : Ctx}
    (h : positionedNewBlock c f = .ok (a, c2))
    (hf : ∀ cc aa c3, f cc (newBasicBlock c).1 = .ok (aa, c3) → EvAppend cc c3) :
    EvAppend c c2 := by
  obtain ⟨c3, hfc, hc2⟩ := positionedNewBlock_ok h
  have h3 : EvAppend { (newBasicBlock c).2 with curBlock := (newBasicBlock c).1 } c3 :=
    hf _ _ _ hfc
  have h2 : EvAppend c { (newBasicBlock c).2 with curBlock := (newBasicBlock c).1 } := by
    obtain ⟨t, ht⟩ := newBasicBlock_append c
    exact ⟨t, ht⟩
  have h4 : EvAppend c3 c2 := evAppend_of_eq (by rw [hc2])
  exact evAppend_trans h2 (evAppend_trans h3 h4)

theorem buildPositioned_append {α : Type} {c : Ctx} {bb : Nat}
    {f : Ctx → Except EmErr (α × Ctx)} {a : α} {c2 : Ctx}
    (h : buildPositioned c bb f = .ok (a, c2))
    (hf : ∀ cc aa c3, f cc = .ok (aa, c3) → EvAppend cc c3) :
    EvAppend c c2 := by
  obtain ⟨c3, hfc, hc2⟩ := buildPositioned_ok h
  have h3 : EvAppend { c with curBlock := bb } c3 := hf _ _ _ hfc
  have h2 : EvAppend c { c with curBlock := bb } := ⟨[], by simp⟩
  have h4 : EvAppend c3 c2 := evAppend_of_eq (by rw [hc2])
  exact evAppend_trans h2 (evAppend_trans h3 h4)

theorem succBranchBody_append {lst : LLVMSumType} {sel : EV} {others : List EV}
    {tbb trmb tag : Nat} {c : Ctx} {bb : Nat} {r : Nat} {c2 : Ctx}
    (h : succBranchBody lst sel others tbb trmb tag c bb = .ok (r, c2)) :
    EvAppend c c2 := by
  rw [succBranchBody] at h
  split at h
  · rename_i vals c3 hu
    split at h
    · rename_i c4 hw
      simp only [Except.ok.injEq, Prod.mk.injEq] at h
      have happ1 := evAppend_of_eq (buildUntagE_append hu).1
      have happ2 := (rmbWrite_append hw).1
      rw [← h.2]
      exact evAppend_trans happ1 (evAppend_trans happ2 (uncondBranch_append c4 tbb))
    · exact Except.noConfusion h
  · exact Except.noConfusion h

theorem wireSuccessors_append {lst : LLVMSumType} {sel : EV} {others : List EV} :
    ∀ (sd : List (Nat × Nat)) (tag : Nat) (c : Ctx) (sw : List (EV × Nat)) (c2 : Ctx),
      wireSuccessors lst sel others sd tag c = .ok (sw, c2) → EvAppend c c2 := by
  intro sd
  induction sd with
  | nil =>
    intro tag c sw c2 h
    rw [wireSuccessors] at h
    simp only [Except.ok.injEq, Prod.mk.injEq] at h
    rw [← h.2]
    exact evAppend_refl c
  | cons p rest ih =>
    intro tag c sw c2 h
    obtain ⟨tbb, trmb⟩ := p
    rw [wireSuccessors] at h
    split at h
    · rename_i bb c3 hpos
      split at h
      · rename_i sw2 c4 hrec
        simp only [Except.ok.injEq, Prod.mk.injEq] at h
        rw [← h.2]
        exact evAppend_trans
          (positionedNewBlock_append hpos
            (fun cc aa c5 hf => succBranchBody_append hf))
          (ih (tag + 1) c3 sw2 c4 hrec)
      · exact Except.noConfusion h
    · exact Except.noConfusion h

theorem dfbInnerBody_append {d : DfbNode} {succData : List (Nat × Nat)}
    {inputsRmb : Nat} {c : Ctx} {r : List (EV × Nat)} {c2 : Ctx}
    (hb : AppendsOnly d.body)
    (h : dfbInnerBody d succData inputsRmb c = .ok (r, c2)) : EvAppend c c2 := by
  rw [dfbInnerBody] at h
  split at h
  · rename_i ins c3 hread
    split at h
    · rename_i c4 hbody
      split at h
      · rename_i outs c5 houts
        split at h
        · exact Except.noConfusion h
        · rename_i sel others
          split at h
          · rename_i sw c6 hwire
            split at h
            · rename_i tagv c7 htag
              split at h
              · exact Except.noConfusion h
              · rename_i t0 trest
                simp only [Except.ok.injEq, Prod.mk.injEq] at h
                rw [← h.2]
                refine evAppend_trans (nodeRmb_append c d.outputNodeId d.outputRow) ?_
                refine evAppend_trans (evAppend_of_eq (rmbRead_append hread).1) ?_
                obtain ⟨tb, htb⟩ := hb _ _ _ _ hbody
                refine evAppend_trans ⟨tb, htb⟩ ?_
                refine evAppend_trans (evAppend_of_eq (rmbRead_append houts).1) ?_
                refine evAppend_trans (wireSuccessors_append _ _ _ _ _ hwire) ?_
                refine evAppend_trans (evAppend_of_eq (buildGetTagE_append htag).1) ?_
                exact buildSwitch_append _ _ _ _
            · exact Except.noConfusion h
          · exact Except.noConfusion h
      · exact Except.noConfusion h
    · exact Except.noConfusion h
  · exact Except.noConfusion h

theorem dfbEmit_append {bbs : List (Nat × Nat)} {ci : Nat} {d : DfbNode}
    {c : Ctx} {r : List (EV × Nat)} {c2 : Ctx} (hb : AppendsOnly d.body)
    (h : dfbEmit bbs ci d c = .ok (r, c2)) : EvAppend c c2 := by
  rw [dfbEmit] at h
  split at h
  · exact Except.noConfusion h
  · split at h
    · exact Except.noConfusion h
    · exact buildPositioned_append h (fun cc aa c3 hf => dfbInnerBody_append hb hf)

theorem exitInnerBody_append {inputsRmb outP : Nat} {c : Ctx} {r : Unit} {c2 : Ctx}
    (h : exitInnerBody inputsRmb outP c = .ok (r, c2)) : EvAppend c c2 := by
  rw [exitInnerBody] at h
  split at h
  · rename_i vs c3 hread
    split at h
    · rename_i c4 hw
      simp only [Except.ok.injEq, Prod.mk.injEq] at h
      rw [← h.2]
      exact evAppend_trans (evAppend_of_eq (rmbRead_append hread).1) (rmbWrite_append hw).1
    · exact Except.noConfusion h
  · exact Except.noConfusion h

theorem exitEmit_append {bbs : List (Nat × Nat)} {ci : Nat} {outP : Nat}
    {c : Ctx} {r : Unit} {c2 : Ctx}
    (h : exitEmit bbs ci outP c = .ok (r, c2)) : EvAppend c c2 := by
  rw [exitEmit] at h
  split at h
  · exact Except.noConfusion h
  · exact buildPositioned_append h (fun cc aa c3 hf => exitInnerBody_append hf)

theorem cfgEmitChildrenLoop_append {bbs : List (Nat × Nat)} {outP : Nat} :
    ∀ (children : List CfgChild) (ci : Nat) (c c2 : Ctx),
      (∀ d, CfgChild.dfb d ∈ children → AppendsOnly d.body) →
      cfgEmitChildrenLoop bbs outP children ci c = .ok c2 → EvAppend c c2 := by
  intro children
  induction children with
  | nil =>
    intro ci c c2 _ h
    rw [cfgEmitChildrenLoop] at h
    injection h with h
    exact evAppend_of_eq (by rw [h])
  | cons child rest ih =>
    intro ci c c2 hb h
    cases child with
    | dfb d =>
      rw [cfgEmitChildrenLoop] at h
      split at h
      · rename_i r c3 hd
        exact evAppend_trans
          (dfbEmit_append (hb d (List.mem_cons_self _ _)) hd)
          (ih (ci + 1) c3 c2 (fun q hq => hb q (List.mem_cons_of_mem _ hq)) h)
      · exact Except.noConfusion h
    | exit =>
      rw [cfgEmitChildrenLoop] at h
      split at h
      · rename_i r c3 he
        exact evAppend_trans (exitEmit_append he)
          (ih (ci + 1) c3 c2 (fun q hq => hb q (List.mem_cons_of_mem _ hq)) h)
      · exact Except.noConfusion h

theorem cfgEmitChildren_append {node : CfgNode} {bbs : List (Nat × Nat)}
    {inputs : List EV} {outP : Nat} {c c2 : Ctx}
    (hb : ∀ d, CfgChild.dfb d ∈ node.children → AppendsOnly d.body)
    (h : cfgEmitChildren node bbs inputs outP c = .ok c2) : EvAppend c c2 := by
  rw [cfgEmitChildren] at h
  split at h
  · exact Except.noConfusion h
  · rename_i entryBb inputsRmb heq0
    split at h
    · rename_i c3 hw
      split at h
      · rename_i c4 hloop
        split at h
        · exact Except.noConfusion h
        · rename_i exitBb mb2 heq1
          injection h with h
          refine evAppend_trans (rmbWrite_append hw).1 ?_
          refine evAppend_trans (uncondBranch_append c3 entryBb) ?_
          refine evAppend_trans (cfgEmitChildrenLoop_append node.children 0 _ _ hb hloop)
            (evAppend_of_eq ?_)
          rw [← h]
      · exact Except.noConfusion h
    · exact Except.noConfusion h

end CfgAppendLemmas


section C8Claim

/-- The allocation pre-pass assigns every child a (block, mailbox) pair
whose allocation events are all in the log when it finishes, appending
only. -/
theorem cfgAllocChildren_spec (node : CfgNode) (exitBlock : Nat) :
    ∀ (children : List CfgChild) (c : Ctx),
      CacheWF c → Event.allocBlock exitBlock ∈ c.events →
      (cfgAllocChildren node exitBlock children c).1.length = children.length ∧
      CacheWF (cfgAllocChildren node exitBlock children c).2 ∧
      EvAppend c (cfgAllocChildren node exitBlock children c).2 ∧
      ∀ p ∈ (cfgAllocChildren node exitBlock children c).1,
        Event.allocBlock p.1 ∈ (cfgAllocChildren node exitBlock children c).2.events ∧
        Event.allocMailbox p.2 ∈ (cfgAllocChildren node exitBlock children c).2.events := by
  intro children
  induction children with
  | nil =>
    intro c hwf hexit
    refine ⟨rfl, hwf, evAppend_refl c, ?_⟩
    intro p hp
    cases hp
  | cons child rest ih =>
    intro c hwf hexit
    cases child with
    | exit =>
      rw [cfgAllocChildren]
      have hwf2 := newRowMailBox_cacheWF c node.outTypes hwf
      have happ := newRowMailBox_append c node.outTypes
      have hexit2 : Event.allocBlock exitBlock ∈ (newRowMailBox c node.outTypes).2.events :=
        mem_of_evAppend happ hexit
      obtain ⟨hlen, hwf3, happ3, hmem3⟩ := ih (newRowMailBox c node.outTypes).2 hwf2 hexit2
      refine ⟨by simp [hlen], hwf3, evAppend_trans happ happ3, ?_⟩
      intro p hp
      rcases List.mem_cons.mp hp with hp | hp
      · subst hp
        exact ⟨mem_of_evAppend happ3 hexit2,
          mem_of_evAppend happ3 (newRowMailBox_event c node.outTypes)⟩
      · exact hmem3 p hp
    | dfb d =>
      rw [cfgAllocChildren]
      have happB := newBasicBlock_append c
      have hwfB := newBasicBlock_cacheWF c hwf
      obtain ⟨hwfN, happN, heventN⟩ :=
        nodeRmb_spec (newBasicBlock c).2 d.inputNodeId d.inputRow hwfB
      have hexitN : Event.allocBlock exitBlock ∈
          (nodeRmb (newBasicBlock c).2 d.inputNodeId d.inputRow).2.events :=
        mem_of_evAppend happN (mem_of_evAppend happB hexit)
      obtain ⟨hlen, hwf3, happ3, hmem3⟩ :=
        ih (nodeRmb (newBasicBlock c).2 d.inputNodeId d.inputRow).2 hwfN hexitN
      refine ⟨by simp [hlen], hwf3,
        evAppend_trans happB (evAppend_trans happN happ3), ?_⟩
      intro p hp
      rcases List.mem_cons.mp hp with hp | hp
      · subst hp
        refine ⟨?_, mem_of_evAppend happ3 heventN⟩
        exact mem_of_evAppend happ3 (mem_of_evAppend happN (newBasicBlock_event c))
      · exact hmem3 p hp

/-- C8: during CFG-region emission, a target basic block and an input
mailbox are allocated for every child of the CFG node before any child's
body is emitted: at the end of `CfgEmitter::new` every child's pair has
its allocation events already in the log, and everything that
`emit_children` (hence every child body) emits is appended strictly
after. -/
theorem C8_cfg_preallocation (node : CfgNode) (inputs : List EV) (outP : Nat)
    (c0 : Ctx) (bbs : List (Nat × Nat)) (c2 : Ctx)
    (hwf : CacheWF c0)
    (hbodies : ∀ d, CfgChild.dfb d ∈ node.children → AppendsOnly d.body)
    (hok : cfgEmit node inputs outP c0 = .ok (bbs, c2)) :
    ∃ c1, cfgNew node c0 = .ok (bbs, c1) ∧
      bbs.length = node.children.length ∧
      (∀ p ∈ bbs, Event.allocBlock p.1 ∈ c1.events ∧
        Event.allocMailbox p.2 ∈ c1.events) ∧
      ∃ rest, c2.events = c1.events ++ rest := by
  rw [cfgEmit] at hok
  split at hok
  · rename_i bbs2 c1 hnew
    split at hok
    · rename_i c3 hchildren
      simp only [Except.ok.injEq, Prod.mk.injEq] at hok
      obtain ⟨hb, hc⟩ := hok
      subst hb
      subst hc
      refine ⟨c1, hnew, ?_, ?_, ?_⟩
      · -- the pair table is positional over the children
        rw [cfgNew] at hnew
        split at hnew
        · simp only [Except.ok.injEq, Prod.mk.injEq] at hnew
          rw [← hnew.1]
          exact (cfgAllocChildren_spec node (newBasicBlock c0).1 node.children
            (newBasicBlock c0).2 (newBasicBlock_cacheWF c0 hwf)
            (newBasicBlock_event c0)).1
        · exact Except.noConfusion hnew
      · rw [cfgNew] at hnew
        split at hnew
        · simp only [Except.ok.injEq, Prod.mk.injEq] at hnew
          obtain ⟨hspec1, hspec2, hspec3, hspec4⟩ :=
            cfgAllocChildren_spec node (newBasicBlock c0).1 node.children
              (newBasicBlock c0).2 (newBasicBlock_cacheWF c0 hwf)
              (newBasicBlock_event c0)
          intro p hp
          rw [← hnew.1] at hp
          rw [← hnew.2]
          exact hspec4 p hp
        · exact Except.noConfusion hnew
      · exact cfgEmitChildren_append hbodies hchildren
    · exact Except.noConfusion hok
  · exact Except.noConfusion hok

/-- C8 witness: a concrete two-child CFG (entry block with the exit as its
single successor); emission succeeds and both children's block and mailbox
allocations precede everything `emit_children` appends. -/
theorem C8_witness :
    ∃ bbs c2,
      cfgEmit ⟨[.dfb ⟨10, 11, [], [[]], [], [1], noOpBody⟩, .exit], []⟩ []
          0 ⟨0, 1, 0, 0, [(0, [])], [], [], []⟩ = .ok (bbs, c2) ∧
      ∃ c1, cfgNew ⟨[.dfb ⟨10, 11, [], [[]], [], [1], noOpBody⟩, .exit], []⟩
          ⟨0, 1, 0, 0, [(0, [])], [], [], []⟩ = .ok (bbs, c1) ∧
        bbs.length = 2 ∧
        (∀ p ∈ bbs, Event.allocBlock p.1 ∈ c1.events ∧
          Event.allocMailbox p.2 ∈ c1.events) ∧
        ∃ rest, c2.events = c1.events ++ rest := by
  obtain ⟨c1, hnew, hlen, hmem, hrest⟩ :=
    C8_cfg_preallocation ⟨[.dfb ⟨10, 11, [], [[]], [], [1], noOpBody⟩, .exit], []⟩ []
      0 ⟨0, 1, 0, 0, [(0, [])], [], [], []⟩ _ _
      (by intro n mb h; cases h)
      (by
        intro d hd
        simp only [List.mem_cons, List.not_mem_nil, or_false] at hd
        cases hd with
        | inl h =>
          injection h with h
          subst h
          intro ins mb c c2 hok
          injection hok with hok
          exact ⟨[], by rw [← hok]; simp⟩
        | inr h => cases h)
      rfl
  exact ⟨_, _, rfl, c1, hnew, hlen, hmem, hrest⟩

end C8Claim

end HugrLLVM
